import Mathlib

/-!
# Verification of the bare-git-client core

A shallow embedding of the tree mutation engine, three-way merge engine and
optimistic concurrency controller of the `bare-git-client` repository
(`src/utils/tree-walker.ts`, `src/utils/concurrency.ts`,
`src/operations/add-many-files.ts`, `src/operations/remove-many-files.ts`,
`src/operations/merge-branches.ts`, `listFiles`).

Modelling conventions:
* The object store is content-addressed and append-only; an OID is a pure
  function of content and equality of OIDs is equality of content.  We
  therefore identify an OID with the object value itself: `TObj` for
  blobs/trees, `CommitObj` for commits.  Object writes are no-ops (the value
  *is* its address), reference writes mutate an explicit `RefMap`.
* isomorphic-git's `writeTree` canonicalises the entry order (it sorts by the
  git tree-entry order, directory names comparing with a trailing `/`), so our
  `writeTree` sorts with a stable insertion sort — any stable sort agrees with
  the stable JavaScript `Array.prototype.sort` under the same total preorder.
* isomorphic-git's `readTree` fails on a blob OID; we model that failure as an
  `operationFailed` error (such an exception is not a `BareGitClientError`, so
  the operations' catch blocks re-wrap it as `OPERATION_FAILED`).
* Fallible code returns `Except GErr`; JavaScript `null`/`undefined` becomes
  `Option`.
-/

/-- Entry kind, the `type: 'blob' | 'tree'` field of a tree entry
(`commit` entries are filtered out by `filterTreeEntries`). -/
inductive EType where
  | blob : EType
  | tree : EType
deriving DecidableEq, Repr

/-- The `TreeEntry` record of `tree-walker.ts`, parameterised by the OID type. -/
structure TreeEntryF (α : Type) where
  mode : String
  path : String
  etype : EType
  oid : α
deriving Repr, DecidableEq

/-- A content-addressed object: a blob (raw content) or a tree (entry list).
Since OIDs are pure functions of content, the OID is identified with the
object value. -/
inductive TObj : Type where
  | blob (content : String) : TObj
  | tree (entries : List (TreeEntryF TObj)) : TObj
deriving Repr

abbrev TreeEntry := TreeEntryF TObj

/-- A commit object (`{ tree, parent, author, committer, message }`); again the
OID is the value itself. -/
inductive CommitObj : Type where
  | mk (tree : TObj) (parents : List CommitObj) (author : String)
      (message : String) : CommitObj
deriving Repr

def CommitObj.tree : CommitObj → TObj
  | .mk t _ _ _ => t

def CommitObj.parents : CommitObj → List CommitObj
  | .mk _ p _ _ => p

def CommitObj.author : CommitObj → String
  | .mk _ _ a _ => a

def CommitObj.message : CommitObj → String
  | .mk _ _ _ m => m

mutual

/-- Decidable equality test for objects (OID comparison `===` in the source:
content-addressing makes OID equality content equality). -/
def TObj.beq : TObj → TObj → Bool
  | .blob a, .blob b => a == b
  | .tree as, .tree bs => beqEnts as bs
  | _, _ => false

def beqEnts : List TreeEntry → List TreeEntry → Bool
  | [], [] => true
  | a :: as, b :: bs =>
      a.mode == b.mode && a.path == b.path && a.etype == b.etype &&
      TObj.beq a.oid b.oid && beqEnts as bs
  | _, _ => false

end

mutual

theorem TObj.beq_iff : ∀ a b : TObj, (TObj.beq a b = true) ↔ a = b
  | .blob a, .blob b => by simp [TObj.beq]
  | .blob _, .tree _ => by simp [TObj.beq]
  | .tree _, .blob _ => by simp [TObj.beq]
  | .tree as, .tree bs => by
      simp only [TObj.beq, beqEnts_iff as bs, TObj.tree.injEq]

theorem beqEnts_iff : ∀ as bs : List TreeEntry, (beqEnts as bs = true) ↔ as = bs
  | [], [] => by simp [beqEnts]
  | [], _ :: _ => by simp [beqEnts]
  | _ :: _, [] => by simp [beqEnts]
  | a :: as, b :: bs => by
      have h1 := TObj.beq_iff a.oid b.oid
      have h2 := beqEnts_iff as bs
      simp only [beqEnts, Bool.and_eq_true, beq_iff_eq, h1, h2, List.cons.injEq]
      constructor
      · rintro ⟨⟨⟨⟨hm, hp⟩, he⟩, ho⟩, ht⟩
        refine ⟨?_, ht⟩
        cases a; cases b; simp_all
      · rintro ⟨rfl, rfl⟩; simp

end

instance : DecidableEq TObj := fun a b => decidable_of_iff _ (TObj.beq_iff a b)

mutual

/-- Decidable equality test for commits (commit OID comparison). -/
def CommitObj.beq : CommitObj → CommitObj → Bool
  | .mk t p a m, .mk t' p' a' m' =>
      decide (t = t') && beqCommits p p' && a == a' && m == m'

def beqCommits : List CommitObj → List CommitObj → Bool
  | [], [] => true
  | c :: cs, d :: ds => CommitObj.beq c d && beqCommits cs ds
  | _, _ => false

end

mutual

theorem CommitObj.beqCommit_iff : ∀ a b : CommitObj, (CommitObj.beq a b = true) ↔ a = b
  | .mk t p a m, .mk t' p' a' m' => by
      have h := beqCommits_iff p p'
      simp only [CommitObj.beq, Bool.and_eq_true, decide_eq_true_eq, beq_iff_eq,
        h, CommitObj.mk.injEq]
      tauto

theorem beqCommits_iff : ∀ as bs : List CommitObj,
    (beqCommits as bs = true) ↔ as = bs
  | [], [] => by simp [beqCommits]
  | [], _ :: _ => by simp [beqCommits]
  | _ :: _, [] => by simp [beqCommits]
  | c :: cs, d :: ds => by
      have h1 := CommitObj.beqCommit_iff c d
      have h2 := beqCommits_iff cs ds
      simp only [beqCommits, Bool.and_eq_true, h1, h2, List.cons.injEq]

end

instance : DecidableEq CommitObj := fun a b =>
  decidable_of_iff _ (CommitObj.beqCommit_iff a b)

mutual

/-- Size of an object, for termination of the recursive merge. -/
def objSize : TObj → Nat
  | .blob _ => 1
  | .tree es => 1 + entsSize es

/-- Combined size of a list of entries. -/
def entsSize : List TreeEntry → Nat
  | [] => 0
  | e :: r => (1 + objSize e.oid) + entsSize r

end

/-- Size of an optional root (`null` roots have size 0). -/
def optSize : Option TObj → Nat
  | none => 0
  | some t => objSize t

/-- The error taxonomy of `BareGitClientError` (the structured code plus the
structured context used by the claims). -/
inductive GErr where
  | notFound (resource : String) (details : String) : GErr
  | invalidPath (path : String) (reason : String) : GErr
  | concurrency (ref : String) : GErr
  | mergeConflict (conflicts : List String) : GErr
  | invalidInput (field : String) (reason : String) : GErr
  | operationFailed (op : String) (msg : String) : GErr
deriving DecidableEq, Repr

def GErr.isNotFound : GErr → Bool
  | .notFound _ _ => true
  | _ => false

instance {ε α : Type} [DecidableEq ε] [DecidableEq α] :
    DecidableEq (Except ε α) := fun a b =>
  match a, b with
  | .error e, .error f => decidable_of_iff (e = f) (by simp)
  | .ok x, .ok y => decidable_of_iff (x = y) (by simp)
  | .error _, .ok _ => isFalse (by simp)
  | .ok _, .error _ => isFalse (by simp)

/-! ## Path cleaning

`filePath.replace(/^\/+|\/+$/g, '').split('/').filter(Boolean)` — strip
leading/trailing separators, split on `/`, drop empty segments.  Implemented
over the character list so that everything reduces by `rfl`/`decide`. -/

/-- `split('/')` on a character list. -/
def splitSlashAux : List Char → List Char → List (List Char)
  | [], acc => [acc.reverse]
  | c :: r, acc =>
      if c = '/' then acc.reverse :: splitSlashAux r []
      else splitSlashAux r (c :: acc)

def splitSlash (cs : List Char) : List (List Char) := splitSlashAux cs []

/-- `replace(/^\/+|\/+$/g, '')`: strip leading and trailing `/` runs. -/
def trimSlashes (cs : List Char) : List Char :=
  ((cs.dropWhile (· = '/')).reverse.dropWhile (· = '/')).reverse

/-- The cleaned segment list of a raw path string. -/
def cleanParts (s : String) : List String :=
  ((splitSlash (trimSlashes s.data)).map (fun cs => String.mk cs)).filter
    (fun t => t ≠ "")

/-! ## Object store primitives -/

/-- Lexicographic byte/codepoint order on character lists (the order JS string
comparison and git's tree-entry comparison use), written structurally so it
evaluates by `decide`. -/
def listCharLe : List Char → List Char → Bool
  | [], _ => true
  | _ :: _, [] => false
  | a :: as, b :: bs =>
      if a.toNat < b.toNat then true
      else if b.toNat < a.toNat then false
      else listCharLe as bs

/-- Lexicographic order on strings. -/
def strLe (a b : String) : Bool := listCharLe a.data b.data

theorem listCharLe_total : ∀ a b : List Char,
    listCharLe a b = true ∨ listCharLe b a = true := by
  intro a
  induction a with
  | nil => intro b; left; rfl
  | cons x xs ih =>
      intro b
      cases b with
      | nil => right; rfl
      | cons y ys =>
          by_cases hxy : x.toNat < y.toNat
          · left; simp [listCharLe, hxy]
          · by_cases hyx : y.toNat < x.toNat
            · right; simp [listCharLe, hyx]
            · rcases ih ys with h | h
              · left; simp [listCharLe, hxy, hyx, h]
              · right; simp [listCharLe, hxy, hyx, h]

theorem listCharLe_trans : ∀ a b c : List Char,
    listCharLe a b = true → listCharLe b c = true → listCharLe a c = true := by
  intro a
  induction a with
  | nil => intro b c _ _; rfl
  | cons x xs ih =>
      intro b c hab hbc
      cases b with
      | nil => simp [listCharLe] at hab
      | cons y ys =>
          cases c with
          | nil => simp [listCharLe] at hbc
          | cons z zs =>
              simp only [listCharLe] at hab hbc ⊢
              by_cases hxy : x.toNat < y.toNat
              · simp only [hxy, if_true] at hab
                by_cases hyz : y.toNat < z.toNat
                · simp [Nat.lt_trans hxy hyz]
                · by_cases hzy : z.toNat < y.toNat
                  · simp [hyz, hzy] at hbc
                  · have hxz : x.toNat < z.toNat := by omega
                    simp [hxz]
              · by_cases hyx : y.toNat < x.toNat
                · simp [hxy, hyx] at hab
                · simp only [hxy, hyx, if_false] at hab
                  by_cases hyz : y.toNat < z.toNat
                  · have hxz : x.toNat < z.toNat := by omega
                    simp [hxz]
                  · by_cases hzy : z.toNat < y.toNat
                    · simp [hyz, hzy] at hbc
                    · simp only [hyz, hzy, if_false] at hbc
                      have hxz : ¬ x.toNat < z.toNat := by omega
                      have hzx : ¬ z.toNat < x.toNat := by omega
                      simp only [hxz, hzx, if_false]
                      exact ih ys zs hab hbc

theorem listCharLe_antisymm : ∀ a b : List Char,
    listCharLe a b = true → listCharLe b a = true → a = b := by
  intro a
  induction a with
  | nil =>
      intro b _ hba
      cases b with
      | nil => rfl
      | cons y ys => simp [listCharLe] at hba
  | cons x xs ih =>
      intro b hab hba
      cases b with
      | nil => simp [listCharLe] at hab
      | cons y ys =>
          simp only [listCharLe] at hab hba
          by_cases hxy : x.toNat < y.toNat
          · simp [hxy, Nat.lt_asymm hxy] at hba
          · by_cases hyx : y.toNat < x.toNat
            · simp [hxy, hyx] at hab
            · simp only [hxy, hyx, if_false] at hab hba
              have hc : x = y := Char.eq_of_val_eq (UInt32.toNat.inj
                (Nat.le_antisymm (Nat.not_lt.mp hyx) (Nat.not_lt.mp hxy)))
              subst hc
              exact congrArg (x :: ·) (ih ys hab hba)

theorem strLe_total (a b : String) : strLe a b = true ∨ strLe b a = true :=
  listCharLe_total a.data b.data

theorem strLe_trans {a b c : String} (h1 : strLe a b = true)
    (h2 : strLe b c = true) : strLe a c = true :=
  listCharLe_trans a.data b.data c.data h1 h2

theorem strLe_antisymm {a b : String} (h1 : strLe a b = true)
    (h2 : strLe b a = true) : a = b := by
  cases a; cases b
  exact congrArg String.mk (listCharLe_antisymm _ _ h1 h2)

/-- The git canonical sort key of a tree entry: directory names compare with a
trailing `/` (isomorphic-git `compareTreeEntryPath`). -/
def gitKey (e : TreeEntry) : String :=
  if e.etype = EType.tree then e.path ++ "/" else e.path

/-- `git.writeTree`: isomorphic-git canonicalises the entry order before
hashing, so the stored object carries the sorted entry list. -/
def writeTree (es : List TreeEntry) : TObj :=
  TObj.tree (es.insertionSort (fun a b => strLe (gitKey a) (gitKey b) = true))

/-- `git.writeBlob`: content-addressed, the OID is the content. -/
def writeBlob (content : String) : TObj := TObj.blob content

/-- `git.readTree` on an OID: fails (with a non-`BareGitClientError` exception,
re-wrapped by every operation's catch block as `OPERATION_FAILED`) when the
object is not a tree. -/
def readTreeE : TObj → Except GErr (List TreeEntry)
  | .tree es => .ok es
  | .blob _ => .error (.operationFailed "readTree" "object expected type tree")

/-- Reading the entries of an optional parent (`tree-walker.ts`
`readTreeEntries` reads a `Map`, empty when the sha is `null`). -/
def readTreeEntriesE : Option TObj → Except GErr (List TreeEntry)
  | none => .ok []
  | some t => readTreeE t

/-- `Map.get(path)` over an entry list: `new Map` keeps the *last* entry for a
duplicated key, so look up from the right. -/
def mapLookup (es : List TreeEntry) (p : String) : Option TreeEntry :=
  es.reverse.find? (fun e => e.path == p)

/-- The key list of the `Map` built from `es` (first-occurrence order). -/
def dedupFirstAux (seen : List String) : List String → List String
  | [] => []
  | x :: r =>
      if x ∈ seen then dedupFirstAux seen r
      else x :: dedupFirstAux (x :: seen) r

def dedupFirst (l : List String) : List String := dedupFirstAux [] l

/-! ## Tree walker (`src/utils/tree-walker.ts`) -/

/-- The loop of `resolvePath`, one segment per step: check the previous entry
was a tree, read the current tree, find the segment. -/
def resolveLoop (targetPath : String) :
    TObj → String → EType → String → List String →
    Except GErr (TObj × String × EType)
  | cur, mode, ty, _prev, [] => .ok (cur, mode, ty)
  | cur, _mode, ty, prev, part :: rest =>
      if ty ≠ EType.tree then
        .error (.invalidPath targetPath (prev ++ " is a file, not a directory"))
      else
        match readTreeE cur with
        | .error e => .error e
        | .ok entries =>
            match entries.find? (fun e => e.path == part) with
            | none =>
                .error (.notFound "Path"
                  (targetPath ++ " not found (missing " ++ part ++ ")"))
            | some entry => resolveLoop targetPath entry.oid entry.mode entry.etype part rest

/-- `resolvePath(gitdir, rootTreeSha, targetPath)`: walk to a target path and
return the entry's `{sha, mode, type}`. -/
def resolvePath (rootTreeSha : TObj) (targetPath : String) :
    Except GErr (TObj × String × EType) :=
  let parts := cleanParts targetPath
  match parts with
  | [] => .ok (rootTreeSha, "040000", EType.tree)
  | _ => resolveLoop targetPath rootTreeSha "040000" EType.tree "" parts

/-- `upsertFileInTree(gitdir, parentTreeSha, pathParts, fileBlobSha)`:
recursively rebuild the trees on the path, replacing or inserting the leaf
blob entry; sibling entries are carried over unchanged.  The source
destructures a non-empty `pathParts` at every call site; the `[]` case is
unreachable and modelled as an error. -/
def upsertFileInTree :
    Option TObj → List String → TObj → Except GErr TObj
  | _, [], _ => .error (.invalidPath "" "empty path parts")
  | parentTreeSha, currentPart :: remainingParts, fileBlobSha =>
      match readTreeEntriesE parentTreeSha with
      | .error e => .error e
      | .ok entries0 =>
          let entries := entries0.filter (fun e => e.path ≠ currentPart)
          if remainingParts.isEmpty then
            .ok (writeTree (entries ++
              [{ mode := "100644", path := currentPart,
                 etype := EType.blob, oid := fileBlobSha }]))
          else
            let existingEntry := entries0.find? (fun e => e.path == currentPart)
            let existingSubTreeSha := existingEntry.map (fun e => e.oid)
            match upsertFileInTree existingSubTreeSha remainingParts fileBlobSha with
            | .error e => .error e
            | .ok newSubTreeSha =>
                .ok (writeTree (entries ++
                  [{ mode := "040000", path := currentPart,
                     etype := EType.tree, oid := newSubTreeSha }]))

/-- `removeFileFromTree(gitdir, parentTreeSha, pathParts)`: remove the leaf
entry, pruning any subtree that becomes empty (`null` signals the parent to
drop the entry). -/
def removeFileFromTree :
    Option TObj → List String → Except GErr (Option TObj)
  | none, _ => .error (.notFound "File" "Parent tree does not exist")
  | some _, [] => .error (.invalidPath "" "empty path parts")
  | some parentTree, currentPart :: remainingParts =>
      match readTreeE parentTree with
      | .error e => .error e
      | .ok entries0 =>
          if remainingParts.isEmpty then
            if entries0.any (fun e => e.path == currentPart) then
              let entries := entries0.filter (fun e => e.path ≠ currentPart)
              if entries.isEmpty then .ok none
              else .ok (some (writeTree entries))
            else .error (.notFound "File" currentPart)
          else
            match entries0.find? (fun e => e.path == currentPart) with
            | none => .error (.notFound "Path" currentPart)
            | some existingEntry =>
                if existingEntry.etype ≠ EType.tree then
                  .error (.notFound "Path" currentPart)
                else
                  match removeFileFromTree (some existingEntry.oid) remainingParts with
                  | .error e => .error e
                  | .ok newSubTreeSha =>
                      let entries := entries0.filter (fun e => e.path ≠ currentPart)
                      let entries := match newSubTreeSha with
                        | some sub => entries ++
                            [{ mode := "040000", path := currentPart,
                               etype := EType.tree, oid := sub }]
                        | none => entries
                      if entries.isEmpty then .ok none
                      else .ok (some (writeTree entries))

/-! ## References and the concurrency controller (`src/utils/concurrency.ts`) -/

/-- The mutable reference namespace: ref name → commit OID. -/
abbrev RefMap := List (String × CommitObj)

/-- `git.resolveRef` wrapped in the callers' try/catch: `none` when the ref
does not exist. -/
def resolveRefOpt (refs : RefMap) (ref : String) : Option CommitObj :=
  (refs.find? (fun kv => kv.1 == ref)).map (fun kv => kv.2)

/-- `git.writeRef({ ref, value, force: true })`: unconditionally bind the ref. -/
def setRef (refs : RefMap) (ref : String) (value : CommitObj) : RefMap :=
  if refs.any (fun kv => kv.1 == ref) then
    refs.map (fun kv => if kv.1 == ref then (kv.1, value) else kv)
  else refs ++ [(ref, value)]

/-- `compareAndSwap(gitdir, ref, expectedSha, newSha)`: read the current OID
(absent → `null`), fail with a concurrency error when it differs from the
expected OID, otherwise force-write the new value. -/
def compareAndSwap (refs : RefMap) (ref : String) (expectedSha : Option CommitObj)
    (newSha : CommitObj) : Except GErr RefMap :=
  let currentSha : Option CommitObj := resolveRefOpt refs ref
  if currentSha ≠ expectedSha then
    .error (.concurrency ref)
  else
    .ok (setRef refs ref newSha)

/-- `startsWith` over the character lists (JS `String.prototype.startsWith`). -/
def strStartsWith (s pre : String) : Bool := pre.data.isPrefixOf s.data

/-- `normalizeRef` (`src/utils/ref-resolver.ts`). -/
def normalizeRef (ref : String) : String :=
  if ref == "HEAD" then ref
  else if strStartsWith ref "refs/" then ref
  else "refs/heads/" ++ ref

/-- The single reference write a committing operation performs, reified so the
claims can talk about *which* controller advanced the ref: the guarded
`compareAndSwap` of `utils/concurrency.ts`, or an unconditional
`git.writeRef({..., force: true})`. -/
inductive RefUpdate where
  | cas (ref : String) (expected : Option CommitObj) (newSha : CommitObj) : RefUpdate
  | force (ref : String) (newSha : CommitObj) : RefUpdate
deriving DecidableEq, Repr

/-- Execute a reified reference update against the reference namespace. -/
def applyRefUpdate (refs : RefMap) : RefUpdate → Except GErr RefMap
  | .cas ref expected newSha => compareAndSwap refs ref expected newSha
  | .force ref newSha => .ok (setRef refs ref newSha)

/-! ## `addManyFiles` (`src/operations/add-many-files.ts`) -/

/-- One file of an `AddManyFilesInput` (string content; the `Buffer`/
`Uint8Array` variants are the same bytes after conversion). -/
structure FileSpec where
  filePath : String
  content : String
deriving DecidableEq, Repr

structure AddManyFilesInput where
  ref : String
  files : List FileSpec
  commitMessage : Option String
  author : Option String
deriving Repr

structure AddManyFilesResult where
  commitSha : CommitObj
  treeSha : TObj
  blobShas : List (String × TObj)
deriving Repr

/-- Sequencing of per-item fallible processing (`Promise.all` over the mapped
array; the first rejection in array order wins). -/
def mapExcept (f : α → Except GErr β) : List α → Except GErr (List β)
  | [] => .ok []
  | a :: r =>
      match f a with
      | .error e => .error e
      | .ok b =>
          match mapExcept f r with
          | .error e => .error e
          | .ok bs => .ok (b :: bs)

/-- The per-file processing step of `addManyFiles` (lines 46–77): write the
blob, clean and split the path, reject only the empty segment list. -/
def processFile (f : FileSpec) : Except GErr (String × TObj × List String) :=
  let blobSha := writeBlob f.content
  let pathParts := cleanParts f.filePath
  if pathParts.isEmpty then
    .error (.invalidPath f.filePath "Path cannot be empty")
  else
    .ok (f.filePath, blobSha, pathParts)

/-- The sequential tree-update loop of `addManyFiles` (lines 82–91), chaining
each upsert's resulting root into the next call. -/
def chainUpserts :
    Option TObj → List (String × TObj × List String) → Except GErr (Option TObj)
  | cur, [] => .ok cur
  | cur, (_, blobSha, pathParts) :: rest =>
      match upsertFileInTree cur pathParts blobSha with
      | .error e => .error e
      | .ok t => chainUpserts (some t) rest

/-- The default commit message `Add ${n} file${n === 1 ? '' : 's'}`. -/
def addDefaultMessage (n : Nat) : String :=
  "Add " ++ toString n ++ (if n = 1 then " file" else " files")

/-- `addManyFiles`: resolve the parent (absent ref → root commit), write all
blobs, chain the upserts, write the commit, and advance the ref through
`compareAndSwap` with the parent OID read at the start.  Returns the new
reference namespace, the operation result, and the reified reference update
it performed. -/
def addManyFiles (refs : RefMap) (clientAuthor : String)
    (input : AddManyFilesInput) :
    Except GErr (RefMap × AddManyFilesResult × RefUpdate) :=
  let ref := normalizeRef input.ref
  let parentSha : Option CommitObj := resolveRefOpt refs ref
  let rootTreeSha : Option TObj := parentSha.map (fun c => c.tree)
  match mapExcept processFile input.files with
  | .error e => .error e
  | .ok processedFiles =>
      match chainUpserts rootTreeSha processedFiles with
      | .error e => .error e
      | .ok none =>
          -- `rootTreeSha!` is null here and no upsert ran: isomorphic-git's
          -- `writeCommit` rejects the null tree; the catch block wraps it.
          .error (.operationFailed "addManyFiles" "tree is null")
      | .ok (some currentTreeSha) =>
          let author := input.author.getD clientAuthor
          let commitMessage :=
            input.commitMessage.getD (addDefaultMessage input.files.length)
          let commitSha := CommitObj.mk currentTreeSha
            (match parentSha with | some p => [p] | none => []) author commitMessage
          let action := RefUpdate.cas ref parentSha commitSha
          match applyRefUpdate refs action with
          | .error e => .error e
          | .ok refs' =>
              .ok (refs',
                { commitSha := commitSha, treeSha := currentTreeSha,
                  blobShas := processedFiles.map (fun pf => (pf.1, pf.2.1)) },
                action)

/-! ## `removeManyFiles` (`src/operations/remove-many-files.ts`) -/

structure RemoveManyFilesInput where
  ref : String
  filePaths : List String
  commitMessage : Option String
  author : Option String
deriving Repr

structure RemoveManyFilesResult where
  commitSha : CommitObj
  treeSha : Option TObj
  filesRemoved : Nat
deriving Repr

/-- The per-path preparation step of `removeManyFiles` (lines 46–59). -/
def preparePath (filePath : String) : Except GErr (String × List String) :=
  let pathParts := cleanParts filePath
  if pathParts.isEmpty then
    .error (.invalidPath filePath "Path cannot be empty")
  else
    .ok (filePath, pathParts)

/-- The sequential removal loop (lines 62–77): a `null` tree mid-batch is a
hard failure. -/
def chainRemoves :
    Option TObj → List (String × List String) → Except GErr (Option TObj)
  | cur, [] => .ok cur
  | none, (filePath, _) :: _ =>
      .error (.operationFailed "removeManyFiles"
        ("Tree became empty after removing previous files, cannot remove " ++
          filePath))
  | some t, (_, pathParts) :: rest =>
      match removeFileFromTree (some t) pathParts with
      | .error e => .error e
      | .ok r => chainRemoves r rest

/-- The default commit message `Remove ${n} file${n === 1 ? '' : 's'}`. -/
def removeDefaultMessage (n : Nat) : String :=
  "Remove " ++ toString n ++ (if n = 1 then " file" else " files")

/-- `removeManyFiles`: duplicate check, resolve the parent (a missing ref is an
isomorphic-git exception, re-wrapped as `OPERATION_FAILED`), chain the
removals, substitute the canonical empty tree for a `null` root, commit, and
advance the ref via `compareAndSwap`. -/
def removeManyFiles (refs : RefMap) (clientAuthor : String)
    (input : RemoveManyFilesInput) :
    Except GErr (RefMap × RemoveManyFilesResult × RefUpdate) :=
  let ref := normalizeRef input.ref
  if (dedupFirst input.filePaths).length ≠ input.filePaths.length then
    .error (.invalidInput "filePaths" "Duplicate file paths are not allowed")
  else
    match resolveRefOpt refs ref with
    | none => .error (.operationFailed "removeManyFiles" ("Could not find " ++ ref))
    | some parentSha =>
        let rootTreeSha := parentSha.tree
        match mapExcept preparePath input.filePaths with
        | .error e => .error e
        | .ok preparedPaths =>
            match chainRemoves (some rootTreeSha) preparedPaths with
            | .error e => .error e
            | .ok currentTreeSha =>
                let author := input.author.getD clientAuthor
                let commitMessage := input.commitMessage.getD
                  (removeDefaultMessage input.filePaths.length)
                let finalTreeSha := currentTreeSha.getD (writeTree [])
                let commitSha :=
                  CommitObj.mk finalTreeSha [parentSha] author commitMessage
                let action := RefUpdate.cas ref (some parentSha) commitSha
                match applyRefUpdate refs action with
                | .error e => .error e
                | .ok refs' =>
                    .ok (refs',
                      { commitSha := commitSha, treeSha := currentTreeSha,
                        filesRemoved := input.filePaths.length },
                      action)

/-! ## Merge engine (`src/operations/merge-branches.ts`)

`mergeTrees` recurses over the union of entry names; termination is by the
combined object size of the three roots. -/

theorem one_add_objSize_le_of_mem {e : TreeEntry} {es : List TreeEntry}
    (h : e ∈ es) : 1 + objSize e.oid ≤ entsSize es := by
  induction es with
  | nil => cases h
  | cons a r ih =>
      rcases List.mem_cons.mp h with rfl | hm
      · simp only [entsSize]; omega
      · have := ih hm; simp only [entsSize]; omega

theorem objSize_mapLookup_lt {es : List TreeEntry} {p : String} {e : TreeEntry}
    (h : mapLookup es p = some e) : objSize e.oid < entsSize es := by
  have hm : e ∈ es := by
    have := List.mem_of_find?_eq_some h
    simpa using this
  have := one_add_objSize_le_of_mem hm
  omega

theorem optSize_mapLookup_le (es : List TreeEntry) (p : String) :
    optSize ((mapLookup es p).map (fun e => e.oid)) ≤ entsSize es := by
  cases h : mapLookup es p with
  | none => simp [optSize]
  | some e =>
      simpa [optSize] using le_of_lt (objSize_mapLookup_lt h)

theorem optAny_some {f : TreeEntry → Bool} {o : Option TreeEntry}
    (h : o.any f = true) : ∃ e, o = some e := by
  cases o with
  | none => simp [Option.any] at h
  | some e => exact ⟨e, rfl⟩

theorem optSize_mapLookup_lt_of_some {es : List TreeEntry} {p : String}
    {e : TreeEntry} (h : mapLookup es p = some e) :
    optSize ((mapLookup es p).map (fun e => e.oid)) < entsSize es := by
  rw [h]
  simpa [optSize] using objSize_mapLookup_lt h

theorem entsSize_readTreeEntriesE_le {x : Option TObj} {l : List TreeEntry}
    (h : readTreeEntriesE x = .ok l) : entsSize l ≤ optSize x := by
  cases x with
  | none =>
      simp only [readTreeEntriesE] at h
      cases h; simp [optSize, entsSize]
  | some t =>
      cases t with
      | blob c => simp [readTreeEntriesE, readTreeE] at h
      | tree es =>
          simp only [readTreeEntriesE, readTreeE, Except.ok.injEq] at h
          subst h
          simp [optSize, objSize]

mutual

/-- `mergeTrees(gitdir, baseTreeSha, ourTreeSha, theirTreeSha, resolutions)`:
three-way recursive tree merge; returns the merged tree (or `null`) and the
collected conflict list. -/
def mergeTrees (baseTreeSha ourTreeSha theirTreeSha : Option TObj)
    (resolutions : List (String × String)) :
    Except GErr (Option TObj × List String) :=
  match h1 : readTreeEntriesE baseTreeSha, h2 : readTreeEntriesE ourTreeSha,
        h3 : readTreeEntriesE theirTreeSha with
  | .ok baseEntries, .ok ourEntries, .ok theirEntries =>
      let allPaths := dedupFirst
        (baseEntries.map (fun e => e.path) ++ ourEntries.map (fun e => e.path) ++
          theirEntries.map (fun e => e.path))
      match mergeNames allPaths baseEntries ourEntries theirEntries resolutions with
      | .error e => .error e
      | .ok (newEntries, conflicts) =>
          if conflicts.length > 0 ∧ resolutions.length = 0 then
            .ok (none, conflicts)
          else if newEntries.length = 0 then
            .ok (none, conflicts)
          else
            .ok (some (writeTree newEntries), conflicts)
  | .error e, _, _ => .error e
  | _, .error e, _ => .error e
  | _, _, .error e => .error e
termination_by
  (optSize baseTreeSha + optSize ourTreeSha + optSize theirTreeSha, 1, 0)
decreasing_by
  have hb := entsSize_readTreeEntriesE_le h1
  have ho := entsSize_readTreeEntriesE_le h2
  have ht := entsSize_readTreeEntriesE_le h3
  simp_wf
  rcases lt_or_eq_of_le (Nat.add_le_add (Nat.add_le_add hb ho) ht) with h | h
  · exact Prod.Lex.left _ _ h
  · rw [h]
    exact Prod.Lex.right _ (Prod.Lex.left _ _ Nat.zero_lt_one)

/-- The body of `mergeTrees`' `for (const p of allPaths)` loop: classify each
name using the three candidate OIDs, recursing on directories; results and
conflicts are accumulated in iteration order. -/
def mergeNames (names : List String)
    (baseEntries ourEntries theirEntries : List TreeEntry)
    (resolutions : List (String × String)) :
    Except GErr (List TreeEntry × List String) :=
  match names with
  | [] => .ok ([], [])
  | p :: rest =>
      let base := mapLookup baseEntries p
      let ours := mapLookup ourEntries p
      let theirs := mapLookup theirEntries p
      let baseSha := base.map (fun e => e.oid)
      let ourSha := ours.map (fun e => e.oid)
      let theirSha := theirs.map (fun e => e.oid)
      if hdir : (ours.any (fun e => e.etype == EType.tree)
          || theirs.any (fun e => e.etype == EType.tree)) = true then
        match mergeTrees baseSha ourSha theirSha resolutions with
        | .error e => .error e
        | .ok (subTree, subConflicts) =>
            match mergeNames rest baseEntries ourEntries theirEntries resolutions with
            | .error e => .error e
            | .ok (restEntries, restConflicts) =>
                let here : List TreeEntry := match subTree with
                  | some ts => [{ mode := "040000", path := p,
                                  etype := EType.tree, oid := ts }]
                  | none => []
                .ok (here ++ restEntries, subConflicts ++ restConflicts)
      else
        let step : List TreeEntry × List String :=
          if ourSha = theirSha then (ours.toList, [])
          else if ourSha = baseSha ∧ theirSha ≠ baseSha then (theirs.toList, [])
          else if ourSha ≠ baseSha ∧ theirSha = baseSha then (ours.toList, [])
          else
            match (resolutions.find? (fun kv => kv.1 == p)).map (fun kv => kv.2) with
            | some r =>
                if r = "" then ([], [p])
                else ([{ mode := "100644", path := p, etype := EType.blob,
                         oid := writeBlob r }], [])
            | none => ([], [p])
        match mergeNames rest baseEntries ourEntries theirEntries resolutions with
        | .error e => .error e
        | .ok (restEntries, restConflicts) =>
            .ok (step.1 ++ restEntries, step.2 ++ restConflicts)
termination_by
  (entsSize baseEntries + entsSize ourEntries + entsSize theirEntries, 0,
    names.length)
decreasing_by
  · simp_wf
    have hb := optSize_mapLookup_le baseEntries x
    have ho := optSize_mapLookup_le ourEntries x
    have ht := optSize_mapLookup_le theirEntries x
    refine Prod.Lex.left _ _ ?_
    rcases Bool.or_eq_true_iff.mp hdir with h | h
    · obtain ⟨oe, hoe⟩ := optAny_some h
      have hlt := optSize_mapLookup_lt_of_some hoe
      omega
    · obtain ⟨te, hte⟩ := optAny_some h
      have hlt := optSize_mapLookup_lt_of_some hte
      omega
  · simp_wf
    exact Prod.Lex.right _ (Prod.Lex.right _ (Nat.lt_succ_self _))

end

/-! ## `mergeBranches` (`src/operations/merge-branches.ts`, lines 119–226) -/

structure MergeBranchesInput where
  sourceBranch : String
  destinationBranch : String
  resolutions : Option (List (String × String))
  commitMessage : Option String
  author : Option String
deriving Repr

structure MergeBranchesResult where
  commitSha : CommitObj
  treeSha : TObj
  conflicts : Option (List String)
deriving Repr

/-- `mergeBranches`: resolve both branch tips, ask the object store for the
merge base (`git.findMergeBase` is an external collaborator, passed in as a
function), run the three-way merge, fail with `MergeConflict` when conflicts
remain and no resolution map was supplied, write the merge commit, and advance
the destination reference with an unconditional forced `git.writeRef`. -/
def mergeBranches (refs : RefMap) (clientAuthor : String)
    (findMergeBase : CommitObj → CommitObj → List CommitObj)
    (input : MergeBranchesInput) :
    Except GErr (RefMap × MergeBranchesResult × RefUpdate) :=
  let sourceRef := normalizeRef input.sourceBranch
  let destRef := normalizeRef input.destinationBranch
  match resolveRefOpt refs sourceRef with
  | none => .error (.operationFailed "mergeBranches" ("Could not find " ++ sourceRef))
  | some sourceSha =>
      match resolveRefOpt refs destRef with
      | none => .error (.operationFailed "mergeBranches" ("Could not find " ++ destRef))
      | some destSha =>
          match findMergeBase destSha sourceSha with
          | [] => .error (.operationFailed "mergeBranches"
              "No common ancestor found between branches")
          | baseSha :: _ =>
              match mergeTrees (some baseSha.tree) (some destSha.tree)
                  (some sourceSha.tree) (input.resolutions.getD []) with
              | .error e => .error e
              | .ok (treeShaOpt, conflicts) =>
                  if conflicts.length > 0 ∧ input.resolutions.isNone then
                    .error (.mergeConflict conflicts)
                  else
                    match treeShaOpt with
                    | none => .error (.operationFailed "mergeBranches"
                        "Merge resulted in empty tree")
                    | some treeSha =>
                        let author := input.author.getD clientAuthor
                        let commitMessage := input.commitMessage.getD
                          ("Merge branch '" ++ input.sourceBranch ++ "' into '" ++
                            input.destinationBranch ++ "'")
                        let mergeCommitSha := CommitObj.mk treeSha
                          [destSha, sourceSha] author commitMessage
                        let action := RefUpdate.force destRef mergeCommitSha
                        match applyRefUpdate refs action with
                        | .error e => .error e
                        | .ok refs' =>
                            .ok (refs',
                              { commitSha := mergeCommitSha, treeSha := treeSha,
                                conflicts := if conflicts.length > 0 then
                                  some conflicts else none },
                              action)

/-! ## `listFiles` -/

structure ListFilesInput where
  ref : String
  folderPath : String
deriving Repr

/-- The listing comparator: directories (trees) group before files (blobs),
ties within a group by name. -/
def listOrder (a b : TreeEntry) : Prop :=
  (a.etype = EType.tree ∧ b.etype = EType.blob) ∨
    (a.etype = b.etype ∧ a.path ≤ b.path)

instance : DecidableRel listOrder := fun a b => by
  unfold listOrder; infer_instance

/-- The `.sort(...)` call of `listFiles`: JavaScript's stable sort under the
directories-first-then-name comparator, modelled by a stable insertion sort. -/
def sortListEntries (es : List TreeEntry) : List TreeEntry :=
  es.insertionSort listOrder

/-- The folder-navigation block of `listFiles` (lines 33–46): resolve the
folder path when non-empty and insist it denotes a tree. -/
def navigateToFolder (rootTreeSha : TObj) (folderPath : String) :
    Except GErr TObj :=
  if folderPath ≠ "" then
    match resolvePath rootTreeSha folderPath with
    | .error e => .error e
    | .ok (sha, _mode, ty) =>
        if ty ≠ EType.tree then
          .error (.invalidPath folderPath "Path points to a file, not a folder")
        else .ok sha
  else .ok rootTreeSha

/-- `listFiles`: resolve the commit, navigate to the target folder, and return
its entries sorted directories-first then alphabetically. -/
def listFiles (refs : RefMap) (input : ListFilesInput) :
    Except GErr (List TreeEntry) :=
  match resolveRefOpt refs input.ref with
  | none => .error (.operationFailed "listFiles" ("Could not find " ++ input.ref))
  | some commitSha =>
      match navigateToFolder commitSha.tree input.folderPath with
      | .error e => .error e
      | .ok targetTreeSha =>
          match readTreeE targetTreeSha with
          | .error e => .error e
          | .ok entries => .ok (sortListEntries entries)

/-! ## Observation functions and store invariants

These are specification-side observations used to state the claims; they are
not part of the translated source. -/

/-- The entry stored at a (non-empty) segment path, if any: descend through
tree entries by name; `none` when any segment is missing or a non-terminal
segment is not a tree object. -/
def entryAt : Option TObj → List String → Option TreeEntry
  | _, [] => none
  | none, _ :: _ => none
  | some (.blob _), _ :: _ => none
  | some (.tree es), s :: rest =>
      match es.find? (fun e => e.path == s) with
      | none => none
      | some e => if rest.isEmpty then some e else entryAt (some e.oid) rest

mutual

/-- No reachable tree node (the root included) has an empty entry list: the
tree-entry invariant `a tree with zero entries must not be persisted`. -/
def noEmptyObj : TObj → Bool
  | .blob _ => true
  | .tree es => !es.isEmpty && noEmptyEnts es

def noEmptyEnts : List TreeEntry → Bool
  | [] => true
  | e :: r => noEmptyObj e.oid && noEmptyEnts r

end

/-- Strict git tree-entry order. -/
def keyLt (a b : TreeEntry) : Prop :=
  strLe (gitKey a) (gitKey b) = true ∧ gitKey a ≠ gitKey b

instance : DecidableRel keyLt := fun a b => by
  unfold keyLt; infer_instance

mutual

/-- A canonical stored tree, as git (and this client through `writeTree`)
produces them: entries strictly sorted by the git tree order, entry names
unique, every entry's kind flag and mode agreeing with the object it points
to, recursively. -/
def wfObj : TObj → Bool
  | .blob _ => true
  | .tree es =>
      decide (List.Pairwise keyLt es) &&
      decide ((es.map (fun e => e.path)).Nodup) &&
      wfEnts es

def wfEnts : List TreeEntry → Bool
  | [] => true
  | e :: r => wfEntry e && wfEnts r

def wfEntry : TreeEntry → Bool
  | e =>
      match e.etype, e.oid with
      | .blob, .blob _ => e.mode == "100644"
      | .tree, .tree _ => e.mode == "040000" && wfObj e.oid
      | _, _ => false

end

/-- An optional root that is either absent or a (well-formed) tree object. -/
def wfOpt : Option TObj → Bool
  | none => true
  | some t => wfObj t

def isTreeOrNone : Option TObj → Bool
  | none => true
  | some (.tree _) => true
  | some (.blob _) => false

def noEmptyOpt : Option TObj → Bool
  | none => true
  | some t => noEmptyObj t

mutual

/-- No blob/tree kind flip between two snapshots: at every shared path, the
two sides never disagree about blob-vs-tree. -/
def noFlip : Option TObj → Option TObj → Bool
  | some (.blob _), some (.tree _) => false
  | some (.tree _), some (.blob _) => false
  | some (.tree bes), some (.tree tes) =>
      noFlipNames
        (dedupFirst (bes.map (fun e => e.path) ++ tes.map (fun e => e.path)))
        bes tes
  | _, _ => true
termination_by b t => (optSize b + optSize t, 0, 0)
decreasing_by
  simp_wf
  refine Prod.Lex.left _ _ ?_
  simp only [optSize, objSize]
  omega

def noFlipNames : List String → List TreeEntry → List TreeEntry → Bool
  | [], _, _ => true
  | p :: rest, bes, tes =>
      noFlip ((mapLookup bes p).map (fun e => e.oid))
          ((mapLookup tes p).map (fun e => e.oid)) &&
        noFlipNames rest bes tes
termination_by names bes tes => (entsSize bes + entsSize tes, 1, names.length)
decreasing_by
  · simp_wf
    have hb := optSize_mapLookup_le bes p
    have ht := optSize_mapLookup_le tes p
    rcases lt_or_eq_of_le (Nat.add_le_add hb ht) with h | h
    · exact Prod.Lex.left _ _ h
    · rw [h]
      exact Prod.Lex.right _ (Prod.Lex.left _ _ Nat.zero_lt_one)
  · simp_wf
    exact Prod.Lex.right _ (Prod.Lex.right _ (Nat.lt_succ_self _))

end


/-! ## General lemmas about references -/

theorem resolveRefOpt_map_subst (ref : String) (v : CommitObj) :
    ∀ refs : RefMap, refs.any (fun kv => kv.1 == ref) = true →
    resolveRefOpt (refs.map (fun kv => if kv.1 == ref then (kv.1, v) else kv)) ref
      = some v := by
  intro refs h
  induction refs with
  | nil => simp at h
  | cons kv rest ih =>
      by_cases hk : kv.1 = ref
      · simp [resolveRefOpt, List.find?_cons, hk]
      · have hk' : (kv.1 == ref) = false := by simpa using hk
        have hrest : rest.any (fun kv => kv.1 == ref) = true := by
          simpa [List.any_cons, hk'] using h
        have := ih hrest
        simpa [resolveRefOpt, List.find?_cons, hk', hk] using this

theorem resolveRefOpt_setRef_self (refs : RefMap) (ref : String) (v : CommitObj) :
    resolveRefOpt (setRef refs ref v) ref = some v := by
  unfold setRef
  by_cases h : refs.any (fun kv => kv.1 == ref) = true
  · rw [if_pos h]
    exact resolveRefOpt_map_subst ref v refs h
  · rw [if_neg h]
    have hnone : refs.find? (fun kv => kv.1 == ref) = none := by
      rw [List.find?_eq_none]
      intro kv hkv hp
      exact h (List.any_eq_true.mpr ⟨kv, hkv, hp⟩)
    simp [resolveRefOpt, List.find?_append, hnone]

/-- **C2.** `compareAndSwap(ref, expectedOid, newOid)` fails with
`ConcurrencyConflict` if and only if the reference's current OID (absent
treated as `null`) differs from `expectedOid`.  In the failure case no updated
reference namespace is produced — the caller's `refs` are untouched, the
reference keeps its value.  When the current OID equals `expectedOid`, the
reference is (force-)written to `newOid`, so it resolves to `newOid`
afterwards. -/
theorem compareAndSwap_spec (refs : RefMap) (ref : String)
    (expectedSha : Option CommitObj) (newSha : CommitObj) :
    (compareAndSwap refs ref expectedSha newSha = .error (.concurrency ref) ↔
      resolveRefOpt refs ref ≠ expectedSha) ∧
    (resolveRefOpt refs ref = expectedSha →
      compareAndSwap refs ref expectedSha newSha = .ok (setRef refs ref newSha)) ∧
    (∀ refs', compareAndSwap refs ref expectedSha newSha = .ok refs' →
      resolveRefOpt refs' ref = some newSha) := by
  by_cases h : resolveRefOpt refs ref = expectedSha
  · have hcas : compareAndSwap refs ref expectedSha newSha
        = .ok (setRef refs ref newSha) := by
      unfold compareAndSwap
      rw [if_neg (by simp [h])]
    refine ⟨by simp [hcas, h], fun _ => hcas, ?_⟩
    intro refs' hok
    rw [hcas] at hok
    cases hok
    exact resolveRefOpt_setRef_self refs ref newSha
  · have hcas : compareAndSwap refs ref expectedSha newSha
        = .error (.concurrency ref) := by
      unfold compareAndSwap
      rw [if_pos h]
    refine ⟨by simp [hcas, h], fun hc => absurd hc h, ?_⟩
    intro refs' hok
    rw [hcas] at hok
    cases hok

/-- Witness for C2: a concrete match (ref creation) and a concrete stale-OID
failure. -/
theorem compareAndSwap_spec_witness :
    (compareAndSwap [] "refs/heads/main" none
        (CommitObj.mk (writeTree []) [] "a" "m") =
      .ok (setRef [] "refs/heads/main" (CommitObj.mk (writeTree []) [] "a" "m"))) ∧
    (compareAndSwap [("refs/heads/main", CommitObj.mk (writeTree []) [] "a" "m")]
        "refs/heads/main" none (CommitObj.mk (writeTree []) [] "a" "m2") =
      .error (.concurrency "refs/heads/main")) := by
  constructor
  · exact (compareAndSwap_spec [] "refs/heads/main" none
      (CommitObj.mk (writeTree []) [] "a" "m")).2.1 rfl
  · exact ((compareAndSwap_spec
      [("refs/heads/main", CommitObj.mk (writeTree []) [] "a" "m")]
      "refs/heads/main" none (CommitObj.mk (writeTree []) [] "a" "m2")).1).mpr
      (by decide)

/-! ## C3: path validation and `.`/`..` segments -/

/-- **C3 (counterexample).** The claim says every path containing a `.` or
`..` segment is rejected with `InvalidPath`.  On the concrete input
`../x.txt`, `addManyFiles` (on an empty repository) does *not* fail: the
cleaned segment list is `["..", "x.txt"]`, the operation succeeds, and the
committed tree contains a directory entry literally named `..`. -/
theorem addManyFiles_dotdot_counterexample :
    cleanParts "../x.txt" = ["..", "x.txt"] ∧
    (addManyFiles [] "tester"
      { ref := "main", files := [{ filePath := "../x.txt", content := "hi" }],
        commitMessage := none, author := none }).isOk = true ∧
    ((addManyFiles [] "tester"
      { ref := "main", files := [{ filePath := "../x.txt", content := "hi" }],
        commitMessage := none, author := none }).toOption.map
      (fun out => entryAt (some out.2.1.treeSha) ["..", "x.txt"])) =
      some (some { mode := "100644", path := "x.txt", etype := EType.blob,
                   oid := TObj.blob "hi" }) := by
  refine ⟨by decide, by decide, by decide⟩

/-- **C3 (amended).** The in-operation path validation of `addManyFiles` and
`removeManyFiles` rejects a raw path, with `InvalidPath` (`Path cannot be
empty`), exactly when its cleaned segment list is empty; any non-empty
segment list — `.` and `..` segments included — is accepted unchanged and its
segments become literal entry names. -/
theorem pathValidation_amended (p c : String) :
    (cleanParts p = [] →
      processFile { filePath := p, content := c }
          = .error (.invalidPath p "Path cannot be empty") ∧
        preparePath p = .error (.invalidPath p "Path cannot be empty")) ∧
    (cleanParts p ≠ [] →
      processFile { filePath := p, content := c }
          = .ok (p, writeBlob c, cleanParts p) ∧
        preparePath p = .ok (p, cleanParts p)) := by
  constructor
  · intro h
    constructor
    · simp [processFile, h]
    · simp [preparePath, h]
  · intro h
    have h' : (cleanParts p).isEmpty = false := by
      cases hc : cleanParts p with
      | nil => exact absurd hc h
      | cons a r => rfl
    constructor
    · simp [processFile, h']
    · simp [preparePath, h']

/-- Witness for C3 (amended): the `..` path is accepted with its literal
segments, and an all-separator path is rejected as empty. -/
theorem pathValidation_amended_witness :
    (processFile { filePath := "../x.txt", content := "hi" }
      = .ok ("../x.txt", writeBlob "hi", ["..", "x.txt"])) ∧
    (preparePath "///" = .error (.invalidPath "///" "Path cannot be empty")) := by
  constructor
  · have h := (pathValidation_amended "../x.txt" "hi").2 (by decide)
    simpa using h.1
  · have h := (pathValidation_amended "///" "x").1 (by decide)
    exact h.2

/-! ## C9: directory listing order -/

instance : IsTotal TreeEntry listOrder := by
  constructor
  intro a b
  unfold listOrder
  rcases le_total a.path b.path with h | h <;>
    cases ha : a.etype <;> cases hb : b.etype <;> simp_all

instance : IsTrans TreeEntry listOrder := by
  constructor
  intro a b c hab hbc
  unfold listOrder at *
  rcases hab with ⟨ha, hb⟩ | ⟨hab, hpab⟩
  · rcases hbc with ⟨hb', _⟩ | ⟨hbc, _⟩
    · rw [hb] at hb'; simp at hb'
    · exact Or.inl ⟨ha, by rw [← hbc]; exact hb⟩
  · rcases hbc with ⟨hb', hc⟩ | ⟨hbc, hpbc⟩
    · exact Or.inl ⟨by rw [hab]; exact hb', hc⟩
    · exact Or.inr ⟨hab.trans hbc, hpab.trans hpbc⟩

/-- **C9.** A successful `listFiles` returns the target directory's entries
ordered with all `tree` (directory) entries before all `blob` (file) entries
and, within each group, by name; and the sorting step used by `listFiles`
returns a permutation of the directory's entries (nothing added or lost). -/
theorem listFiles_sorted_spec :
    (∀ (refs : RefMap) (input : ListFilesInput) (out : List TreeEntry),
      listFiles refs input = .ok out → List.Sorted listOrder out) ∧
    (∀ es : List TreeEntry,
      (sortListEntries es).Perm es ∧ List.Sorted listOrder (sortListEntries es)) := by
  have hsort : ∀ es : List TreeEntry,
      (sortListEntries es).Perm es ∧ List.Sorted listOrder (sortListEntries es) :=
    fun es => ⟨List.perm_insertionSort listOrder es,
      List.sorted_insertionSort listOrder es⟩
  refine ⟨?_, hsort⟩
  intro refs input out h
  unfold listFiles at h
  split at h
  · cases h
  · split at h
    · cases h
    · split at h
      · cases h
      · cases h
        exact (hsort _).2

/-- Witness for C9: a concrete repository whose root holds a file `b.txt` and
a directory `a`; the listing sorts the directory first. -/
theorem listFiles_sorted_spec_witness :
    List.Sorted listOrder
      [{ mode := "040000", path := "a", etype := EType.tree,
         oid := TObj.tree [{ mode := "100644", path := "x", etype := EType.blob,
                             oid := TObj.blob "1" }] },
       { mode := "100644", path := "b.txt", etype := EType.blob,
         oid := TObj.blob "2" }] := by
  refine listFiles_sorted_spec.1
    [("HEAD", CommitObj.mk (TObj.tree
      [{ mode := "100644", path := "b.txt", etype := EType.blob,
         oid := TObj.blob "2" },
       { mode := "040000", path := "a", etype := EType.tree,
         oid := TObj.tree [{ mode := "100644", path := "x", etype := EType.blob,
                             oid := TObj.blob "1" }] }]) [] "a" "m")]
    { ref := "HEAD", folderPath := "" } _ (by rfl)

/-! ## C10: adding to a nonexistent branch creates it -/

theorem readTreeEntriesE_error {x : Option TObj} {e : GErr}
    (h : readTreeEntriesE x = .error e) :
    e = .operationFailed "readTree" "object expected type tree" := by
  cases x with
  | none => simp [readTreeEntriesE] at h
  | some t =>
      cases t with
      | blob c =>
          simp only [readTreeEntriesE, readTreeE, Except.error.injEq] at h
          exact h.symm
      | tree es => simp [readTreeEntriesE, readTreeE] at h

theorem upsert_error_not_notFound :
    ∀ (parts : List String) (parent : Option TObj) (blobSha : TObj) (e : GErr),
      upsertFileInTree parent parts blobSha = .error e → e.isNotFound = false := by
  intro parts
  induction parts with
  | nil =>
      intro parent blobSha e h
      simp only [upsertFileInTree, Except.error.injEq] at h
      subst h; rfl
  | cons p rest ih =>
      intro parent blobSha e h
      rw [upsertFileInTree] at h
      cases hr : readTreeEntriesE parent with
      | error e' =>
          rw [hr] at h
          cases h
          rw [readTreeEntriesE_error hr]; rfl
      | ok entries0 =>
          rw [hr] at h
          by_cases hemp : rest.isEmpty
          · simp only [hemp, if_true] at h
            cases h
          · simp only [hemp, if_false, Bool.false_eq_true] at h
            cases hu : upsertFileInTree
                ((entries0.find? (fun e => e.path == p)).map (fun e => e.oid))
                rest blobSha with
            | error e' =>
                rw [hu] at h
                cases h
                exact ih _ _ _ hu
            | ok t => rw [hu] at h; cases h

theorem chainUpserts_error_not_notFound :
    ∀ (l : List (String × TObj × List String)) (cur : Option TObj) (e : GErr),
      chainUpserts cur l = .error e → e.isNotFound = false := by
  intro l
  induction l with
  | nil => intro cur e h; simp [chainUpserts] at h
  | cons f rest ih =>
      intro cur e h
      rw [chainUpserts] at h
      cases hu : upsertFileInTree cur f.2.2 f.2.1 with
      | error e' =>
          rw [hu] at h; cases h
          exact upsert_error_not_notFound _ _ _ _ hu
      | ok t =>
          rw [hu] at h
          exact ih _ _ h

theorem mapExcept_processFile_error :
    ∀ (fs : List FileSpec) (e : GErr),
      mapExcept processFile fs = .error e → e.isNotFound = false := by
  intro fs
  induction fs with
  | nil => intro e h; simp [mapExcept] at h
  | cons f rest ih =>
      intro e h
      rw [mapExcept] at h
      cases hp : processFile f with
      | error e' =>
          rw [hp] at h; cases h
          unfold processFile at hp
          by_cases hemp : (cleanParts f.filePath).isEmpty
          · simp only [hemp, if_true] at hp
            cases hp; rfl
          · simp only [hemp, if_false, Bool.false_eq_true] at hp
            cases hp
      | ok b =>
          rw [hp] at h
          cases hm : mapExcept processFile rest with
          | error e' => rw [hm] at h; cases h; exact ih _ hm
          | ok bs => rw [hm] at h; cases h

/-- **C10.** When `addManyFiles` is invoked with a reference that does not
resolve, the operation never fails with `NotFound`; on success it writes a
commit with an empty parent list (a root commit), performs its reference
update through `compareAndSwap` with a `null` expected OID, and the branch
afterwards exists and points at the new commit. -/
theorem addManyFiles_absent_ref_spec (refs : RefMap) (clientAuthor : String)
    (input : AddManyFilesInput)
    (h : resolveRefOpt refs (normalizeRef input.ref) = none) :
    (∀ refs' res act,
      addManyFiles refs clientAuthor input = .ok (refs', res, act) →
        res.commitSha.parents = [] ∧
        act = RefUpdate.cas (normalizeRef input.ref) none res.commitSha ∧
        resolveRefOpt refs' (normalizeRef input.ref) = some res.commitSha) ∧
    (∀ e, addManyFiles refs clientAuthor input = .error e →
      e.isNotFound = false) := by
  unfold addManyFiles
  simp only [h, Option.map_none']
  cases hm : mapExcept processFile input.files with
  | error e =>
      refine ⟨fun _ _ _ hx => ?_, fun e' he => ?_⟩
      · cases hx
      · cases he
        exact mapExcept_processFile_error _ _ hm
  | ok processed =>
      cases hc : chainUpserts none processed with
      | error e =>
          simp only [hc]
          refine ⟨fun _ _ _ hx => ?_, fun e' he => ?_⟩
          · cases hx
          · cases he
            exact chainUpserts_error_not_notFound _ _ _ hc
      | ok cur =>
          simp only [hc]
          cases cur with
          | none =>
              refine ⟨fun _ _ _ hx => ?_, fun e' he => ?_⟩
              · cases hx
              · cases he; rfl
          | some finalTree =>
              have hcas := (compareAndSwap_spec refs (normalizeRef input.ref) none
                (CommitObj.mk finalTree [] (input.author.getD clientAuthor)
                  (input.commitMessage.getD (addDefaultMessage input.files.length)))).2.1 h
              simp only [applyRefUpdate, hcas]
              refine ⟨fun refs' res act hx => ?_, fun e' he => ?_⟩
              · cases hx
                refine ⟨rfl, rfl, ?_⟩
                exact resolveRefOpt_setRef_self _ _ _
              · cases he

/-- Witness for C10: adding `a.txt` on an empty reference namespace creates
`refs/heads/main` as a root commit through a CAS with `null` expected OID. -/
theorem addManyFiles_absent_ref_spec_witness :
    CommitObj.parents (CommitObj.mk
        (TObj.tree [{ mode := "100644", path := "a.txt", etype := EType.blob,
                      oid := TObj.blob "x" }]) [] "tester" "Add 1 file") = [] ∧
    RefUpdate.cas "refs/heads/main" none
        (CommitObj.mk
          (TObj.tree [{ mode := "100644", path := "a.txt", etype := EType.blob,
                        oid := TObj.blob "x" }]) [] "tester" "Add 1 file") =
      RefUpdate.cas (normalizeRef "main") none
        (CommitObj.mk
          (TObj.tree [{ mode := "100644", path := "a.txt", etype := EType.blob,
                        oid := TObj.blob "x" }]) [] "tester" "Add 1 file") ∧
    resolveRefOpt
        [("refs/heads/main",
          CommitObj.mk
            (TObj.tree [{ mode := "100644", path := "a.txt", etype := EType.blob,
                          oid := TObj.blob "x" }]) [] "tester" "Add 1 file")]
        (normalizeRef "main") =
      some (CommitObj.mk
        (TObj.tree [{ mode := "100644", path := "a.txt", etype := EType.blob,
                      oid := TObj.blob "x" }]) [] "tester" "Add 1 file") :=
  (addManyFiles_absent_ref_spec [] "tester"
      { ref := "main", files := [{ filePath := "a.txt", content := "x" }],
        commitMessage := none, author := none } (by rfl)).1
    _ _ _ (by rfl)

/-! ## C1: which controller advances the reference -/

/-- **C1 (amended).** `addManyFiles` and `removeManyFiles` advance their
branch reference only through `compareAndSwap`, with the expected OID being
exactly the reference value read at the start of the operation; `mergeBranches`
however advances the destination reference with an unconditional forced
`git.writeRef`, not through the compare-and-swap controller. -/
theorem refUpdate_controller_amended :
    (∀ (refs : RefMap) (ca : String) (input : AddManyFilesInput) out,
      addManyFiles refs ca input = .ok out →
        out.2.2 = RefUpdate.cas (normalizeRef input.ref)
          (resolveRefOpt refs (normalizeRef input.ref)) out.2.1.commitSha) ∧
    (∀ (refs : RefMap) (ca : String) (input : RemoveManyFilesInput) out,
      removeManyFiles refs ca input = .ok out →
        out.2.2 = RefUpdate.cas (normalizeRef input.ref)
          (resolveRefOpt refs (normalizeRef input.ref)) out.2.1.commitSha) ∧
    (∀ (refs : RefMap) (ca : String)
      (fmb : CommitObj → CommitObj → List CommitObj)
      (input : MergeBranchesInput) out,
      mergeBranches refs ca fmb input = .ok out →
        out.2.2 = RefUpdate.force (normalizeRef input.destinationBranch)
          out.2.1.commitSha) := by
  refine ⟨?_, ?_, ?_⟩
  · intro refs ca input out h
    unfold addManyFiles at h
    cases hm : mapExcept processFile input.files with
    | error e => simp only [hm] at h; cases h
    | ok processed =>
        simp only [hm] at h
        cases hc : chainUpserts
            ((resolveRefOpt refs (normalizeRef input.ref)).map
              (fun c => c.tree)) processed with
        | error e => simp only [hc] at h; cases h
        | ok cur =>
            simp only [hc] at h
            cases cur with
            | none => cases h
            | some finalTree =>
                simp only [applyRefUpdate] at h
                cases hcas : compareAndSwap refs (normalizeRef input.ref)
                    (resolveRefOpt refs (normalizeRef input.ref))
                    (CommitObj.mk finalTree
                      (match resolveRefOpt refs (normalizeRef input.ref) with
                        | some p => [p] | none => [])
                      (input.author.getD ca)
                      (input.commitMessage.getD
                        (addDefaultMessage input.files.length))) with
                | error e => simp only [hcas] at h; cases h
                | ok refs' =>
                    simp only [hcas] at h
                    cases h
                    rfl
  · intro refs ca input out h
    unfold removeManyFiles at h
    by_cases hdup :
        (dedupFirst input.filePaths).length ≠ input.filePaths.length
    · rw [if_pos hdup] at h; cases h
    · rw [if_neg hdup] at h
      cases hr : resolveRefOpt refs (normalizeRef input.ref) with
      | none => simp only [hr] at h; cases h
      | some parentSha =>
          simp only [hr] at h
          cases hm : mapExcept preparePath input.filePaths with
          | error e => simp only [hm] at h; cases h
          | ok prepared =>
              simp only [hm] at h
              cases hc : chainRemoves (some parentSha.tree) prepared with
              | error e => simp only [hc] at h; cases h
              | ok cur =>
                  simp only [hc, applyRefUpdate] at h
                  cases hcas : compareAndSwap refs (normalizeRef input.ref)
                      (some parentSha)
                      (CommitObj.mk (cur.getD (writeTree []))
                        [parentSha] (input.author.getD ca)
                        (input.commitMessage.getD
                          (removeDefaultMessage input.filePaths.length))) with
                  | error e => simp only [hcas] at h; cases h
                  | ok refs' =>
                      simp only [hcas] at h
                      cases h
                      rfl
  · intro refs ca fmb input out h
    unfold mergeBranches at h
    cases hs : resolveRefOpt refs (normalizeRef input.sourceBranch) with
    | none => simp only [hs] at h; cases h
    | some sourceSha =>
        simp only [hs] at h
        cases hd : resolveRefOpt refs (normalizeRef input.destinationBranch) with
        | none => simp only [hd] at h; cases h
        | some destSha =>
            simp only [hd] at h
            cases hb : fmb destSha sourceSha with
            | nil => simp only [hb] at h; cases h
            | cons baseSha rest =>
                simp only [hb] at h
                cases hmt : mergeTrees (some baseSha.tree) (some destSha.tree)
                    (some sourceSha.tree) (input.resolutions.getD []) with
                | error e => simp only [hmt] at h; cases h
                | ok pr =>
                    simp only [hmt] at h
                    by_cases hcf : pr.2.length > 0 ∧ input.resolutions.isNone
                    · rw [if_pos hcf] at h; cases h
                    · rw [if_neg hcf] at h
                      cases hts : pr.1 with
                      | none => simp only [hts] at h; cases h
                      | some treeSha =>
                          simp only [hts, applyRefUpdate] at h
                          cases h
                          rfl

/-- **C1 (counterexample).** Not every committing operation goes through the
compare-and-swap controller: a concrete successful `mergeBranches` run
advances the destination reference with an unconditional forced write
(`RefUpdate.force`), which differs from the `compareAndSwap` update carrying
the destination tip read at the start (`some c0`). -/
theorem mergeBranches_forced_write_counterexample :
    ((mergeBranches
        [("refs/heads/main",
          CommitObj.mk (TObj.tree [⟨"100644", "a.txt", EType.blob, TObj.blob "a"⟩])
            [] "t" "init"),
         ("refs/heads/feature",
          CommitObj.mk (TObj.tree [⟨"100644", "a.txt", EType.blob, TObj.blob "b"⟩])
            [CommitObj.mk
              (TObj.tree [⟨"100644", "a.txt", EType.blob, TObj.blob "a"⟩])
              [] "t" "init"] "t" "feat")]
        "t"
        (fun _ _ => [CommitObj.mk
          (TObj.tree [⟨"100644", "a.txt", EType.blob, TObj.blob "a"⟩])
          [] "t" "init"])
        { sourceBranch := "feature", destinationBranch := "main",
          resolutions := none, commitMessage := none,
          author := none }).map (fun out => out.2.2)) =
      .ok (RefUpdate.force "refs/heads/main"
        (CommitObj.mk (TObj.tree [⟨"100644", "a.txt", EType.blob, TObj.blob "b"⟩])
          [CommitObj.mk (TObj.tree [⟨"100644", "a.txt", EType.blob, TObj.blob "a"⟩])
            [] "t" "init",
           CommitObj.mk (TObj.tree [⟨"100644", "a.txt", EType.blob, TObj.blob "b"⟩])
            [CommitObj.mk
              (TObj.tree [⟨"100644", "a.txt", EType.blob, TObj.blob "a"⟩])
              [] "t" "init"] "t" "feat"]
          "t" "Merge branch 'feature' into 'main'")) ∧
    (∀ expected newSha, RefUpdate.force "refs/heads/main" newSha ≠
      RefUpdate.cas "refs/heads/main" expected newSha) := by
  constructor
  · simp [mergeBranches, normalizeRef, strStartsWith, resolveRefOpt,
      mergeTrees, mergeNames, readTreeEntriesE, readTreeE, mapLookup,
      dedupFirst, dedupFirstAux, writeTree, writeBlob, gitKey,
      List.insertionSort, List.orderedInsert, applyRefUpdate, setRef,
      CommitObj.tree, CommitObj.parents, Option.getD, Option.toList,
      Option.any, Except.map]
  · intro expected newSha h
    cases h

/-- Witness for C1 (amended): the concrete `addManyFiles` run issues exactly
the compare-and-swap update with the parent OID read at the start (`none`). -/
theorem refUpdate_controller_amended_witness :
    (([("refs/heads/main",
        CommitObj.mk
          (TObj.tree [{ mode := "100644", path := "a.txt", etype := EType.blob,
                        oid := TObj.blob "x" }]) [] "tester" "Add 1 file")],
      ({ commitSha := CommitObj.mk
           (TObj.tree [{ mode := "100644", path := "a.txt", etype := EType.blob,
                         oid := TObj.blob "x" }]) [] "tester" "Add 1 file",
         treeSha := TObj.tree [{ mode := "100644", path := "a.txt",
                                 etype := EType.blob, oid := TObj.blob "x" }],
         blobShas := [("a.txt", TObj.blob "x")] } : AddManyFilesResult),
      RefUpdate.cas "refs/heads/main" none
        (CommitObj.mk
          (TObj.tree [{ mode := "100644", path := "a.txt", etype := EType.blob,
                        oid := TObj.blob "x" }]) [] "tester"
          "Add 1 file")) : RefMap × AddManyFilesResult × RefUpdate).2.2 =
      RefUpdate.cas (normalizeRef "main") (resolveRefOpt [] (normalizeRef "main"))
        (([("refs/heads/main",
            CommitObj.mk
              (TObj.tree [{ mode := "100644", path := "a.txt",
                            etype := EType.blob, oid := TObj.blob "x" }])
              [] "tester" "Add 1 file")],
          ({ commitSha := CommitObj.mk
               (TObj.tree [{ mode := "100644", path := "a.txt",
                             etype := EType.blob, oid := TObj.blob "x" }])
               [] "tester" "Add 1 file",
             treeSha := TObj.tree [{ mode := "100644", path := "a.txt",
                                     etype := EType.blob, oid := TObj.blob "x" }],
             blobShas := [("a.txt", TObj.blob "x")] } : AddManyFilesResult),
          RefUpdate.cas "refs/heads/main" none
            (CommitObj.mk
              (TObj.tree [{ mode := "100644", path := "a.txt",
                            etype := EType.blob, oid := TObj.blob "x" }])
              [] "tester"
              "Add 1 file")) : RefMap × AddManyFilesResult × RefUpdate).2.1.commitSha :=
  refUpdate_controller_amended.1 [] "tester"
    { ref := "main", files := [{ filePath := "a.txt", content := "x" }],
      commitMessage := none, author := none } _ (by rfl)

/-! ## C5: upsert/resolve round-trip -/

/-- The claim's path-validity condition for `upsert`: the segment list is
walked and every non-terminal segment that already exists in the tree must be
a tree object (the source reads the existing entry's OID and `readTree`s it,
whatever its kind). -/
def canUpsert : Option TObj → List String → Bool
  | _, [] => false
  | none, _ :: _ => true
  | some (.blob _), _ :: _ => false
  | some (.tree es), p :: rest =>
      if rest.isEmpty then true
      else
        match es.find? (fun e => e.path == p) with
        | none => true
        | some e => canUpsert (some e.oid) rest

theorem find?_eq_some_of_unique {α : Type} {pred : α → Bool} :
    ∀ {l : List α} {e : α}, e ∈ l → pred e = true →
      (∀ x ∈ l, pred x = true → x = e) → l.find? pred = some e := by
  intro l
  induction l with
  | nil => intro e h; cases h
  | cons a r ih =>
      intro e hm hp huniq
      cases hpa : pred a with
      | true =>
          have ha : a = e := huniq a (List.mem_cons_self a r) hpa
          subst ha
          simp [List.find?_cons, hpa]
      | false =>
          have hm' : e ∈ r := by
            rcases List.mem_cons.mp hm with rfl | h
            · rw [hp] at hpa; cases hpa
            · exact h
          simp only [List.find?_cons, hpa]
          exact ih hm' hp (fun x hx hpx => huniq x (List.mem_cons_of_mem _ hx) hpx)

theorem find?_writeTree_unique {es : List TreeEntry} {e : TreeEntry} {p : String}
    (he : e.path = p) (hno : ∀ x ∈ es, x.path ≠ p) :
    ((es ++ [e]).insertionSort (fun a b => strLe (gitKey a) (gitKey b) = true)).find?
        (fun x => x.path == p) = some e := by
  apply find?_eq_some_of_unique
  · have hperm := List.perm_insertionSort
      (fun a b => strLe (gitKey a) (gitKey b) = true) (es ++ [e])
    exact hperm.mem_iff.mpr (by simp)
  · simp [he]
  · intro x hx hpx
    have hx' : x ∈ es ++ [e] := (List.perm_insertionSort
      (fun a b => strLe (gitKey a) (gitKey b) = true) (es ++ [e])).mem_iff.mp hx
    rcases List.mem_append.mp hx' with hxe | hxe
    · exact absurd (by simpa using hpx) (hno x hxe)
    · simpa using hxe

theorem upsert_resolveLoop (c : String) :
    ∀ (parts : List String) (t : Option TObj) (P prev : String),
      parts ≠ [] → canUpsert t parts = true →
      ∃ t', upsertFileInTree t parts (writeBlob c) = .ok t' ∧
        resolveLoop P t' "040000" EType.tree prev parts =
          .ok (TObj.blob c, "100644", EType.blob) := by
  intro parts
  induction parts with
  | nil => intro t P prev h _; exact absurd rfl h
  | cons p rest ih =>
      intro t P prev _ hcan
      -- the entries read from the (optional) parent
      obtain ⟨es0, hread⟩ : ∃ es0, readTreeEntriesE t = .ok es0 := by
        cases t with
        | none => exact ⟨[], rfl⟩
        | some o =>
            cases o with
            | blob b => simp [canUpsert] at hcan
            | tree es => exact ⟨es, rfl⟩
      have hfilter : ∀ x ∈ es0.filter (fun e => e.path ≠ p), x.path ≠ p := by
        intro x hx
        have := List.of_mem_filter hx
        simpa using this
      by_cases hr : rest = []
      · subst hr
        refine ⟨writeTree (es0.filter (fun e => e.path ≠ p) ++
          [{ mode := "100644", path := p, etype := EType.blob,
             oid := writeBlob c }]), ?_, ?_⟩
        · rw [upsertFileInTree, hread]
          rfl
        · rw [resolveLoop]
          rw [if_neg (by simp)]
          have hfind := @find?_writeTree_unique
            (es0.filter (fun e => e.path ≠ p))
            { mode := "100644", path := p, etype := EType.blob,
              oid := writeBlob c } p rfl hfilter
          simp only [writeTree, readTreeE]
          rw [hfind]
          rfl
      · have hre : rest.isEmpty = false := by
          cases rest with
          | nil => exact absurd rfl hr
          | cons a r => rfl
        -- the existing sub-tree OID and its canUpsert property
        have hcansub : canUpsert
            ((es0.find? (fun e => e.path == p)).map (fun e => e.oid)) rest = true := by
          cases t with
          | none =>
              cases hread
              cases rest with
              | nil => exact absurd rfl hr
              | cons a r => rfl
          | some o =>
              cases o with
              | blob b => simp [canUpsert] at hcan
              | tree es =>
                  cases hread
                  rw [canUpsert, if_neg (by simp [hre])] at hcan
                  cases hf : es0.find? (fun e => e.path == p) with
                  | none =>
                      simp only [Option.map_none']
                      cases rest with
                      | nil => exact absurd rfl hr
                      | cons a r => rfl
                  | some e =>
                      rw [hf] at hcan
                      simpa using hcan
        obtain ⟨sub', hsub, hres⟩ := ih
          ((es0.find? (fun e => e.path == p)).map (fun e => e.oid)) P p hr hcansub
        refine ⟨writeTree (es0.filter (fun e => e.path ≠ p) ++
          [{ mode := "040000", path := p, etype := EType.tree, oid := sub' }]),
          ?_, ?_⟩
        · rw [upsertFileInTree, hread]
          simp only [hre, Bool.false_eq_true, if_false, hsub]
        · rw [resolveLoop]
          rw [if_neg (by simp)]
          have hfind := @find?_writeTree_unique
            (es0.filter (fun e => e.path ≠ p))
            { mode := "040000", path := p, etype := EType.tree, oid := sub' }
            p rfl hfilter
          simp only [writeTree, readTreeE]
          rw [hfind]
          exact hres

/-- **C5.** For every valid path `P` (non-empty cleaned segment list whose
non-terminal segments in the existing tree are absent or trees) and every
content `C`: resolving `P` in the tree produced by upserting `blob(C)` at `P`
returns a blob entry whose OID is the blob OID of `C` (mode `100644`). -/
theorem upsert_resolve_roundtrip (t : Option TObj) (P c : String)
    (hne : cleanParts P ≠ []) (hcan : canUpsert t (cleanParts P) = true) :
    ∃ t', upsertFileInTree t (cleanParts P) (writeBlob c) = .ok t' ∧
      resolvePath t' P = .ok (TObj.blob c, "100644", EType.blob) := by
  obtain ⟨t', hup, hres⟩ := upsert_resolveLoop c (cleanParts P) t P "" hne hcan
  refine ⟨t', hup, ?_⟩
  unfold resolvePath
  cases hcp : cleanParts P with
  | nil => exact absurd hcp hne
  | cons a r =>
      rw [hcp] at hres
      exact hres

/-- Witness for C5: round-trip of `src/a.txt` with content `x` over a
repository already holding `README.md` and `src/old.txt`. -/
theorem upsert_resolve_roundtrip_witness :
    ∃ t', upsertFileInTree
        (some (TObj.tree
          [{ mode := "100644", path := "README.md", etype := EType.blob,
             oid := TObj.blob "readme" },
           { mode := "040000", path := "src", etype := EType.tree,
             oid := TObj.tree
               [{ mode := "100644", path := "old.txt",
                  etype := EType.blob, oid := TObj.blob "o" }] }]))
        (cleanParts "src/a.txt") (writeBlob "x") = .ok t' ∧
      resolvePath t' "src/a.txt" = .ok (TObj.blob "x", "100644", EType.blob) :=
  upsert_resolve_roundtrip _ "src/a.txt" "x" (by decide) (by decide)

/-! ## C6: pruning of empty directories on removal -/

theorem noEmptyEnts_iff : ∀ l : List TreeEntry,
    noEmptyEnts l = true ↔ ∀ e ∈ l, noEmptyObj e.oid = true := by
  intro l
  induction l with
  | nil => simp [noEmptyEnts]
  | cons e r ih =>
      rw [noEmptyEnts, Bool.and_eq_true, ih]
      constructor
      · rintro ⟨he, hr⟩ x hx
        rcases List.mem_cons.mp hx with rfl | hx'
        · exact he
        · exact hr x hx'
      · intro h
        exact ⟨h e (List.mem_cons_self e r),
          fun x hx => h x (List.mem_cons_of_mem _ hx)⟩

theorem noEmptyObj_writeTree {l : List TreeEntry} (hne : l ≠ [])
    (h : ∀ e ∈ l, noEmptyObj e.oid = true) :
    noEmptyObj (writeTree l) = true := by
  unfold writeTree
  have hperm := List.perm_insertionSort (fun a b => strLe (gitKey a) (gitKey b) = true) l
  rw [noEmptyObj, Bool.and_eq_true]
  constructor
  · cases hs : l.insertionSort (fun a b => strLe (gitKey a) (gitKey b) = true) with
    | nil =>
        exfalso
        apply hne
        have hp := hperm
        rw [hs] at hp
        exact hp.symm.eq_nil
    | cons a r => rfl
  · rw [noEmptyEnts_iff]
    intro e he
    exact h e (hperm.mem_iff.mp he)

theorem removeFile_preserves_noEmpty :
    ∀ (parts : List String) (t : TObj) (r : Option TObj),
      noEmptyObj t = true → removeFileFromTree (some t) parts = .ok r →
      ∀ t', r = some t' → noEmptyObj t' = true := by
  intro parts
  induction parts with
  | nil =>
      intro t r _ h
      rw [removeFileFromTree] at h
      cases h
  | cons p rest ih =>
      intro t r hne h t' hr
      rw [removeFileFromTree] at h
      cases t with
      | blob b => simp [readTreeE] at h
      | tree es0 =>
          simp only [readTreeE] at h
          have hents : ∀ e ∈ es0, noEmptyObj e.oid = true := by
            rw [noEmptyObj, Bool.and_eq_true] at hne
            exact (noEmptyEnts_iff es0).mp hne.2
          by_cases hrest : rest.isEmpty
          · simp only [hrest, if_true] at h
            by_cases hex : es0.any (fun e => e.path == p)
            · simp only [hex, if_true] at h
              by_cases hemp : (es0.filter (fun e => e.path ≠ p)).isEmpty
              · simp only [hemp, if_true] at h
                cases h
                cases hr
              · simp only [hemp, Bool.false_eq_true, if_false] at h
                cases h
                cases hr
                apply noEmptyObj_writeTree
                · intro hnil
                  rw [hnil] at hemp
                  exact hemp rfl
                · intro e he
                  exact hents e (List.mem_of_mem_filter he)
            · simp only [hex, Bool.false_eq_true, if_false] at h
              cases h
          · simp only [hrest, Bool.false_eq_true, if_false] at h
            cases hf : es0.find? (fun e => e.path == p) with
            | none => rw [hf] at h; cases h
            | some existingEntry =>
                simp only [hf] at h
                by_cases hty : existingEntry.etype ≠ EType.tree
                · rw [if_pos hty] at h; cases h
                · rw [if_neg hty] at h
                  cases hsub : removeFileFromTree (some existingEntry.oid) rest with
                  | error e => rw [hsub] at h; cases h
                  | ok newSub =>
                      rw [hsub] at h
                      have hsubne : ∀ t'', newSub = some t'' →
                          noEmptyObj t'' = true := by
                        intro t'' ht''
                        refine ih existingEntry.oid newSub ?_ hsub t'' ht''
                        exact hents existingEntry (List.mem_of_find?_eq_some hf)
                      cases newSub with
                      | none =>
                          simp only at h
                          by_cases hemp : (es0.filter (fun e => e.path ≠ p)).isEmpty
                          · rw [if_pos hemp] at h; cases h; cases hr
                          · rw [if_neg hemp] at h
                            cases h
                            cases hr
                            apply noEmptyObj_writeTree
                            · intro hnil
                              rw [hnil] at hemp
                              exact hemp rfl
                            · intro e he
                              exact hents e (List.mem_of_mem_filter he)
                      | some sub =>
                          simp only at h
                          have hnonnil :
                              (es0.filter (fun e => e.path ≠ p) ++
                                [{ mode := "040000", path := p,
                                   etype := EType.tree, oid := sub }]) ≠ [] := by
                            simp
                          rw [if_neg (by simpa using hnonnil)] at h
                          cases h
                          cases hr
                          apply noEmptyObj_writeTree hnonnil
                          intro e he
                          rcases List.mem_append.mp he with he' | he'
                          · exact hents e (List.mem_of_mem_filter he')
                          · have heq :
                                e = { mode := "040000", path := p,
                                      etype := EType.tree, oid := sub } := by
                              simpa using he'
                            subst heq
                            exact hsubne sub rfl

/-- **C6.** Removal prunes empty directories: starting from a tree with no
empty subtree anywhere, any tree returned by `removeFileFromTree` again has no
empty subtree anywhere — an emptied subtree is never persisted, its entry is
dropped from the parent, and the absence propagates upward (an emptied root
yields `none` rather than a stored empty tree); and when the whole tree
became absent, the committing caller `removeManyFiles` substitutes the
canonical empty-tree object in the commit it writes. -/
theorem remove_prunes_empty_dirs :
    (∀ (parts : List String) (t : TObj) (r : Option TObj),
      noEmptyObj t = true → removeFileFromTree (some t) parts = .ok r →
      ∀ t', r = some t' → noEmptyObj t' = true) ∧
    (∀ (refs : RefMap) (ca : String) (input : RemoveManyFilesInput) out,
      removeManyFiles refs ca input = .ok out →
      out.2.1.treeSha = none →
      out.2.1.commitSha.tree = writeTree []) := by
  refine ⟨removeFile_preserves_noEmpty, ?_⟩
  intro refs ca input out h htree
  unfold removeManyFiles at h
  by_cases hdup : (dedupFirst input.filePaths).length ≠ input.filePaths.length
  · rw [if_pos hdup] at h; cases h
  · rw [if_neg hdup] at h
    cases hr : resolveRefOpt refs (normalizeRef input.ref) with
    | none => simp only [hr] at h; cases h
    | some parentSha =>
        simp only [hr] at h
        cases hm : mapExcept preparePath input.filePaths with
        | error e => simp only [hm] at h; cases h
        | ok prepared =>
            simp only [hm] at h
            cases hc : chainRemoves (some parentSha.tree) prepared with
            | error e => simp only [hc] at h; cases h
            | ok cur =>
                simp only [hc, applyRefUpdate] at h
                cases hcas : compareAndSwap refs (normalizeRef input.ref)
                    (some parentSha)
                    (CommitObj.mk (cur.getD (writeTree []))
                      [parentSha] (input.author.getD ca)
                      (input.commitMessage.getD
                        (removeDefaultMessage input.filePaths.length))) with
                | error e => simp only [hcas] at h; cases h
                | ok refs' =>
                    simp only [hcas] at h
                    cases h
                    simp only at htree
                    subst htree
                    rfl

/-- Witness for C6: removing `a/f.txt` from a tree whose directory `a` holds
only that file prunes `a` entirely, leaving only `b.txt` (part 1); and
removing the only file of a repository produces a commit whose tree is the
canonical empty tree (part 2). -/
theorem remove_prunes_empty_dirs_witness :
    noEmptyObj (writeTree
      [{ mode := "100644", path := "b.txt", etype := EType.blob,
         oid := TObj.blob "b" }]) = true ∧
    CommitObj.tree (CommitObj.mk (writeTree [])
        [CommitObj.mk
          (TObj.tree [{ mode := "100644", path := "a.txt", etype := EType.blob,
                        oid := TObj.blob "x" }]) [] "t" "c0"]
        "tester" "Remove 1 file") = writeTree [] := by
  constructor
  · exact remove_prunes_empty_dirs.1 ["a", "f.txt"]
      (TObj.tree
        [{ mode := "040000", path := "a", etype := EType.tree,
           oid := TObj.tree [{ mode := "100644", path := "f.txt",
                               etype := EType.blob, oid := TObj.blob "f" }] },
         { mode := "100644", path := "b.txt", etype := EType.blob,
           oid := TObj.blob "b" }])
      _ (by decide) (by rfl) _ rfl
  · exact remove_prunes_empty_dirs.2
      [("refs/heads/main",
        CommitObj.mk
          (TObj.tree [{ mode := "100644", path := "a.txt", etype := EType.blob,
                        oid := TObj.blob "x" }]) [] "t" "c0")]
      "tester"
      { ref := "main", filePaths := ["a.txt"], commitMessage := none,
        author := none }
      _ (by rfl) (by rfl)

/-! ## C8: structural sharing — off-path entries are untouched -/

mutual

/-- Entry names are unique within every reachable tree (the `TreeEntry`
invariant of the data model). -/
def uniqueNamesObj : TObj → Bool
  | .blob _ => true
  | .tree es =>
      decide ((es.map (fun e => e.path)).Nodup) && uniqueNamesEnts es

def uniqueNamesEnts : List TreeEntry → Bool
  | [] => true
  | e :: r => uniqueNamesObj e.oid && uniqueNamesEnts r

end

def uniqueNamesOpt : Option TObj → Bool
  | none => true
  | some t => uniqueNamesObj t

theorem uniqueNamesEnts_iff : ∀ l : List TreeEntry,
    uniqueNamesEnts l = true ↔ ∀ e ∈ l, uniqueNamesObj e.oid = true := by
  intro l
  induction l with
  | nil => simp [uniqueNamesEnts]
  | cons e r ih =>
      rw [uniqueNamesEnts, Bool.and_eq_true, ih]
      constructor
      · rintro ⟨he, hr⟩ x hx
        rcases List.mem_cons.mp hx with rfl | hx'
        · exact he
        · exact hr x hx'
      · intro h
        exact ⟨h e (List.mem_cons_self e r),
          fun x hx => h x (List.mem_cons_of_mem _ hx)⟩

/-- Looking up an off-path name `n` after a level has been rebuilt (the
`pi`-entry filtered out, replacement entries all named `pi`, the result
re-sorted) gives the same entry as in the original level. -/
theorem find?_rebuilt_level (es0 extra : List TreeEntry) (pi n : String)
    (hn : n ≠ pi) (hnodup : (es0.map (fun e => e.path)).Nodup)
    (hextra : ∀ x ∈ extra, x.path = pi) :
    ((es0.filter (fun e => e.path ≠ pi) ++ extra).insertionSort
        (fun a b => strLe (gitKey a) (gitKey b) = true)).find? (fun e => e.path == n) =
      es0.find? (fun e => e.path == n) := by
  have hperm := List.perm_insertionSort (fun a b => strLe (gitKey a) (gitKey b) = true)
    (es0.filter (fun e => e.path ≠ pi) ++ extra)
  cases hf : es0.find? (fun e => e.path == n) with
  | some e =>
      have hmem : e ∈ es0 := List.mem_of_find?_eq_some hf
      have hpath : e.path = n := by
        have := List.find?_some hf
        simpa using this
      apply find?_eq_some_of_unique
      · apply hperm.mem_iff.mpr
        apply List.mem_append_left
        apply List.mem_filter.mpr
        exact ⟨hmem, by simp [hpath, hn]⟩
      · simp [hpath]
      · intro x hx hpx
        have hx' := hperm.mem_iff.mp hx
        have hxpath : x.path = n := by simpa using hpx
        rcases List.mem_append.mp hx' with hxf | hxe
        · have hxmem : x ∈ es0 := List.mem_of_mem_filter hxf
          exact List.inj_on_of_nodup_map hnodup hxmem hmem
            (by rw [hxpath, hpath])
        · exact absurd (hextra x hxe) (hxpath ▸ hn)
  | none =>
      rw [List.find?_eq_none] at hf ⊢
      intro x hx
      have hx' := hperm.mem_iff.mp hx
      rcases List.mem_append.mp hx' with hxf | hxe
      · exact hf x (List.mem_of_mem_filter hxf)
      · simp [hextra x hxe, Ne.symm hn]

theorem entryAt_none_ne : ∀ l : List String, l ≠ [] → entryAt none l = none := by
  intro l hl
  cases l with
  | nil => exact absurd rfl hl
  | cons a r => rfl

theorem entryAt_single (l : List TreeEntry) (s : String) :
    entryAt (some (TObj.tree l)) [s] = l.find? (fun e => e.path == s) := by
  rw [entryAt]
  cases l.find? (fun e => e.path == s) with
  | none => rfl
  | some e => rfl

theorem entryAt_cons (l : List TreeEntry) (s : String) (rest : List String)
    (hrest : rest ≠ []) :
    entryAt (some (TObj.tree l)) (s :: rest) =
      (match l.find? (fun e => e.path == s) with
        | none => none
        | some e => entryAt (some e.oid) rest) := by
  have hre : rest.isEmpty = false := by
    cases rest with
    | nil => exact absurd rfl hrest
    | cons a r => rfl
  cases rest with
  | nil => exact absurd rfl hrest
  | cons a r =>
      rw [entryAt]
      cases l.find? (fun e => e.path == s) with
      | none => rfl
      | some e => rfl

theorem upsert_frame :
    ∀ (pre : List String) (pi : String) (suf : List String) (n : String)
      (t : Option TObj) (b t' : TObj),
      uniqueNamesOpt t = true → n ≠ pi →
      upsertFileInTree t (pre ++ pi :: suf) b = .ok t' →
      entryAt (some t') (pre ++ [n]) = entryAt t (pre ++ [n]) := by
  intro pre
  induction pre with
  | nil =>
      intro pi suf n t b t' huniq hn h
      simp only [List.nil_append] at h ⊢
      rw [upsertFileInTree] at h
      cases t with
      | none =>
          simp only [readTreeEntriesE] at h
          by_cases hsuf : suf.isEmpty
          · simp only [hsuf, if_true] at h
            cases h
            have hrl := find?_rebuilt_level []
              [{ mode := "100644", path := pi, etype := EType.blob, oid := b }]
              pi n hn (by simp) (by simp)
            simp only [List.filter_nil, List.nil_append] at hrl
            simp only [writeTree]
            rw [entryAt_single]
            simp only [List.filter_nil, List.nil_append]
            rw [hrl]
            rfl
          · simp only [hsuf, Bool.false_eq_true, if_false] at h
            cases hs : upsertFileInTree none suf b with
            | error e => simp only [List.find?_nil, Option.map_none', hs] at h; cases h
            | ok sub' =>
                simp only [List.find?_nil, Option.map_none', hs] at h
                cases h
                have hrl := find?_rebuilt_level []
                  [{ mode := "040000", path := pi, etype := EType.tree, oid := sub' }]
                  pi n hn (by simp) (by simp)
                simp only [List.filter_nil, List.nil_append] at hrl
                simp only [writeTree]
                rw [entryAt_single]
                simp only [List.filter_nil, List.nil_append]
                rw [hrl]
                rfl
      | some o =>
          cases o with
          | blob c => simp [readTreeEntriesE, readTreeE] at h
          | tree es0 =>
              simp only [readTreeEntriesE, readTreeE] at h
              have hnodup : (es0.map (fun e => e.path)).Nodup := by
                rw [uniqueNamesOpt, uniqueNamesObj, Bool.and_eq_true] at huniq
                exact of_decide_eq_true huniq.1
              by_cases hsuf : suf.isEmpty
              · simp only [hsuf, if_true] at h
                cases h
                simp only [writeTree]
                rw [entryAt_single, entryAt_single]
                exact find?_rebuilt_level es0
                  [{ mode := "100644", path := pi, etype := EType.blob, oid := b }]
                  pi n hn hnodup (by simp)
              · simp only [hsuf, Bool.false_eq_true, if_false] at h
                cases hs : upsertFileInTree
                    ((es0.find? (fun e => e.path == pi)).map (fun e => e.oid))
                    suf b with
                | error e => rw [hs] at h; cases h
                | ok sub' =>
                    rw [hs] at h
                    cases h
                    simp only [writeTree]
                    rw [entryAt_single, entryAt_single]
                    exact find?_rebuilt_level es0
                      [{ mode := "040000", path := pi, etype := EType.tree,
                         oid := sub' }]
                      pi n hn hnodup (by simp)
  | cons q pre' ih =>
      intro pi suf n t b t' huniq hn h
      simp only [List.cons_append] at h ⊢
      rw [upsertFileInTree] at h
      have hne' : pre' ++ pi :: suf ≠ [] := by simp
      have hreste : (pre' ++ pi :: suf).isEmpty = false := by
        cases hx : pre' ++ pi :: suf with
        | nil => exact absurd hx hne'
        | cons a r => rfl
      have hnne : pre' ++ [n] ≠ [] := by simp
      cases t with
      | none =>
          simp only [readTreeEntriesE, hreste, Bool.false_eq_true, if_false] at h
          cases hs : upsertFileInTree none (pre' ++ pi :: suf) b with
          | error e => simp only [List.find?_nil, Option.map_none', hs] at h; cases h
          | ok sub' =>
              simp only [List.find?_nil, Option.map_none', hs] at h
              cases h
              have hfind := @find?_writeTree_unique
                (([] : List TreeEntry).filter (fun e => e.path ≠ q))
                { mode := "040000", path := q, etype := EType.tree,
                  oid := sub' } q rfl (by simp)
              simp only [List.filter_nil, List.nil_append] at hfind
              simp only [writeTree, List.filter_nil, List.nil_append]
              rw [entryAt_none_ne (q :: (pre' ++ [n])) (by simp)]
              rw [entryAt_cons _ _ _ hnne]
              rw [hfind]
              dsimp only
              rw [ih pi suf n none b sub' rfl hn hs]
              exact entryAt_none_ne _ hnne
      | some o =>
          cases o with
          | blob c => simp [readTreeEntriesE, readTreeE] at h
          | tree es0 =>
              simp only [readTreeEntriesE, readTreeE, hreste, Bool.false_eq_true,
                if_false] at h
              have huents : uniqueNamesEnts es0 = true := by
                rw [uniqueNamesOpt, uniqueNamesObj, Bool.and_eq_true] at huniq
                exact huniq.2
              cases hs : upsertFileInTree
                  ((es0.find? (fun e => e.path == q)).map (fun e => e.oid))
                  (pre' ++ pi :: suf) b with
              | error e => rw [hs] at h; cases h
              | ok sub' =>
                  rw [hs] at h
                  cases h
                  have hfind := @find?_writeTree_unique
                    (es0.filter (fun e => e.path ≠ q))
                    { mode := "040000", path := q, etype := EType.tree,
                      oid := sub' } q rfl
                    (fun x hx => by simpa using List.of_mem_filter hx)
                  simp only [writeTree]
                  rw [entryAt_cons _ _ _ hnne]
                  rw [hfind]
                  dsimp only
                  rw [entryAt_cons _ _ _ hnne]
                  cases hfq : es0.find? (fun e => e.path == q) with
                  | none =>
                      simp only [hfq, Option.map_none'] at hs
                      dsimp only
                      rw [ih pi suf n none b sub' rfl hn hs]
                      exact entryAt_none_ne _ hnne
                  | some e =>
                      simp only [hfq, Option.map_some'] at hs
                      dsimp only
                      have huniqsub : uniqueNamesOpt (some e.oid) = true := by
                        rw [uniqueNamesOpt]
                        exact (uniqueNamesEnts_iff es0).mp huents e
                          (List.mem_of_find?_eq_some hfq)
                      exact ih pi suf n (some e.oid) b sub' huniqsub hn hs

theorem find?_none_of_filter_nil {es0 : List TreeEntry} {pi n : String}
    (hn : n ≠ pi) (hfil : es0.filter (fun e => e.path ≠ pi) = []) :
    es0.find? (fun e => e.path == n) = none := by
  rw [List.find?_eq_none]
  intro x hx hpx
  have hall := List.filter_eq_nil_iff.mp hfil x hx
  have hxpi : x.path = pi := by simpa using hall
  have hxn : x.path = n := by simpa using hpx
  exact hn (hxn ▸ hxpi)

theorem find?_sorted_filter_self (es0 : List TreeEntry) (q : String) :
    ((es0.filter (fun e => e.path ≠ q)).insertionSort
        (fun a b => strLe (gitKey a) (gitKey b) = true)).find? (fun e => e.path == q) = none := by
  rw [List.find?_eq_none]
  intro x hx hpx
  have hx' := (List.perm_insertionSort (fun a b => strLe (gitKey a) (gitKey b) = true)
    (es0.filter (fun e => e.path ≠ q))).mem_iff.mp hx
  have hne : x.path ≠ q := by simpa using List.of_mem_filter hx'
  exact hne (by simpa using hpx)

theorem remove_frame :
    ∀ (pre : List String) (pi : String) (suf : List String) (n : String)
      (t : TObj) (r : Option TObj),
      uniqueNamesObj t = true → n ≠ pi →
      removeFileFromTree (some t) (pre ++ pi :: suf) = .ok r →
      entryAt r (pre ++ [n]) = entryAt (some t) (pre ++ [n]) := by
  intro pre
  induction pre with
  | nil =>
      intro pi suf n t r huniq hn h
      simp only [List.nil_append] at h ⊢
      rw [removeFileFromTree] at h
      cases t with
      | blob c => simp [readTreeE] at h
      | tree es0 =>
          simp only [readTreeE] at h
          have hnodup : (es0.map (fun e => e.path)).Nodup := by
            rw [uniqueNamesObj, Bool.and_eq_true] at huniq
            exact of_decide_eq_true huniq.1
          by_cases hsuf : suf.isEmpty
          · simp only [hsuf, if_true] at h
            by_cases hex : es0.any (fun e => e.path == pi)
            · simp only [hex, if_true] at h
              by_cases hemp : (es0.filter (fun e => e.path ≠ pi)).isEmpty
              · simp only [hemp, if_true] at h
                cases h
                rw [entryAt_none_ne [n] (by simp), entryAt_single]
                exact (find?_none_of_filter_nil hn
                  (List.isEmpty_iff.mp hemp)).symm
              · simp only [hemp, Bool.false_eq_true, if_false] at h
                cases h
                simp only [writeTree]
                rw [entryAt_single, entryAt_single]
                have := find?_rebuilt_level es0 [] pi n hn hnodup (by simp)
                simpa using this
            · simp only [hex, Bool.false_eq_true, if_false] at h
              cases h
          · simp only [hsuf, Bool.false_eq_true, if_false] at h
            cases hf : es0.find? (fun e => e.path == pi) with
            | none => rw [hf] at h; cases h
            | some existingEntry =>
                simp only [hf] at h
                by_cases hty : existingEntry.etype ≠ EType.tree
                · rw [if_pos hty] at h; cases h
                · rw [if_neg hty] at h
                  cases hsub : removeFileFromTree (some existingEntry.oid) suf with
                  | error e => rw [hsub] at h; cases h
                  | ok newSub =>
                      rw [hsub] at h
                      cases newSub with
                      | none =>
                          simp only at h
                          by_cases hemp :
                              (es0.filter (fun e => e.path ≠ pi)).isEmpty
                          · rw [if_pos hemp] at h
                            cases h
                            rw [entryAt_none_ne [n] (by simp), entryAt_single]
                            exact (find?_none_of_filter_nil hn
                              (List.isEmpty_iff.mp hemp)).symm
                          · rw [if_neg hemp] at h
                            cases h
                            simp only [writeTree]
                            rw [entryAt_single, entryAt_single]
                            have := find?_rebuilt_level es0 [] pi n hn hnodup
                              (by simp)
                            simpa using this
                      | some sub =>
                          simp only at h
                          rw [if_neg (by simp)] at h
                          cases h
                          simp only [writeTree]
                          rw [entryAt_single, entryAt_single]
                          exact find?_rebuilt_level es0
                            [{ mode := "040000", path := pi, etype := EType.tree,
                               oid := sub }]
                            pi n hn hnodup (by simp)
  | cons q pre' ih =>
      intro pi suf n t r huniq hn h
      simp only [List.cons_append] at h ⊢
      rw [removeFileFromTree] at h
      have hnne : pre' ++ [n] ≠ [] := by simp
      have hreste : (pre' ++ pi :: suf).isEmpty = false := by
        cases hx : pre' ++ pi :: suf with
        | nil => simp at hx
        | cons a rr => rfl
      cases t with
      | blob c => simp [readTreeE] at h
      | tree es0 =>
          simp only [readTreeE, hreste, Bool.false_eq_true, if_false] at h
          have huents : uniqueNamesEnts es0 = true := by
            rw [uniqueNamesObj, Bool.and_eq_true] at huniq
            exact huniq.2
          cases hf : es0.find? (fun e => e.path == q) with
          | none => rw [hf] at h; cases h
          | some existingEntry =>
              simp only [hf] at h
              by_cases hty : existingEntry.etype ≠ EType.tree
              · rw [if_pos hty] at h; cases h
              · rw [if_neg hty] at h
                cases hsub : removeFileFromTree (some existingEntry.oid)
                    (pre' ++ pi :: suf) with
                | error e => rw [hsub] at h; cases h
                | ok newSub =>
                    rw [hsub] at h
                    have huniqsub : uniqueNamesObj existingEntry.oid = true :=
                      (uniqueNamesEnts_iff es0).mp huents existingEntry
                        (List.mem_of_find?_eq_some hf)
                    have hih := ih pi suf n existingEntry.oid newSub
                      huniqsub hn hsub
                    have hrhs : entryAt (some (TObj.tree es0))
                        (q :: (pre' ++ [n])) =
                        entryAt (some existingEntry.oid) (pre' ++ [n]) := by
                      rw [entryAt_cons _ _ _ hnne, hf]
                    cases newSub with
                    | none =>
                        simp only at h
                        by_cases hemp :
                            (es0.filter (fun e => e.path ≠ q)).isEmpty
                        · rw [if_pos hemp] at h
                          cases h
                          rw [entryAt_none_ne (q :: (pre' ++ [n])) (by simp)]
                          rw [hrhs, ← hih]
                          exact (entryAt_none_ne _ hnne).symm
                        · rw [if_neg hemp] at h
                          cases h
                          simp only [writeTree]
                          rw [entryAt_cons _ _ _ hnne]
                          rw [find?_sorted_filter_self es0 q]
                          rw [hrhs, ← hih]
                          exact (entryAt_none_ne _ hnne).symm
                    | some sub =>
                        simp only at h
                        rw [if_neg (by simp)] at h
                        cases h
                        simp only [writeTree]
                        rw [entryAt_cons _ _ _ hnne]
                        have hfind := @find?_writeTree_unique
                          (es0.filter (fun e => e.path ≠ q))
                          { mode := "040000", path := q,
                            etype := EType.tree, oid := sub }
                          q rfl
                          (fun x hx => by simpa using List.of_mem_filter hx)
                        rw [hfind]
                        dsimp only
                        rw [hrhs, ← hih]

/-- **C8.** Structural sharing: mutating a tree at path
`P = pre ++ [pi] ++ suf` by upsert or remove leaves every entry that is not on
the path from the root to `P`'s leaf — an entry reachable at `pre ++ [n]` with
`n ≠ pi`, for any prefix `pre` of the path — observably unchanged: the entry
(its stored OID included) is looked up identically in the old and new trees.
The uniqueness hypothesis is the data-model invariant that entry names within
one tree are unique. -/
theorem mutation_frame_spec :
    (∀ (pre : List String) (pi : String) (suf : List String) (n : String)
      (t : Option TObj) (b t' : TObj),
      uniqueNamesOpt t = true → n ≠ pi →
      upsertFileInTree t (pre ++ pi :: suf) b = .ok t' →
      entryAt (some t') (pre ++ [n]) = entryAt t (pre ++ [n])) ∧
    (∀ (pre : List String) (pi : String) (suf : List String) (n : String)
      (t : TObj) (r : Option TObj),
      uniqueNamesObj t = true → n ≠ pi →
      removeFileFromTree (some t) (pre ++ pi :: suf) = .ok r →
      entryAt r (pre ++ [n]) = entryAt (some t) (pre ++ [n])) :=
  ⟨upsert_frame, remove_frame⟩

/-- Witness for C8: upserting `a/b.txt` leaves `a/f.txt` and root `c.txt`
untouched; removing `a/f.txt` leaves root `c.txt` untouched. -/
theorem mutation_frame_spec_witness :
    (entryAt (some (TObj.tree
        [{ mode := "040000", path := "a", etype := EType.tree,
           oid := TObj.tree
             [{ mode := "100644", path := "b.txt", etype := EType.blob,
                oid := TObj.blob "b" },
              { mode := "100644", path := "f.txt", etype := EType.blob,
                oid := TObj.blob "f" }] },
         { mode := "100644", path := "c.txt", etype := EType.blob,
           oid := TObj.blob "c" }]))
      (["a"] ++ ["f.txt"]) =
    entryAt (some (TObj.tree
        [{ mode := "040000", path := "a", etype := EType.tree,
           oid := TObj.tree
             [{ mode := "100644", path := "f.txt", etype := EType.blob,
                oid := TObj.blob "f" }] },
         { mode := "100644", path := "c.txt", etype := EType.blob,
           oid := TObj.blob "c" }]))
      (["a"] ++ ["f.txt"])) ∧
    (entryAt (some (TObj.tree
        [{ mode := "100644", path := "c.txt", etype := EType.blob,
           oid := TObj.blob "c" }]))
      ([] ++ ["c.txt"]) =
    entryAt (some (TObj.tree
        [{ mode := "040000", path := "a", etype := EType.tree,
           oid := TObj.tree
             [{ mode := "100644", path := "f.txt", etype := EType.blob,
                oid := TObj.blob "f" }] },
         { mode := "100644", path := "c.txt", etype := EType.blob,
           oid := TObj.blob "c" }]))
      ([] ++ ["c.txt"])) := by
  constructor
  · exact mutation_frame_spec.1 ["a"] "b.txt" [] "f.txt"
      (some (TObj.tree
        [{ mode := "040000", path := "a", etype := EType.tree,
           oid := TObj.tree
             [{ mode := "100644", path := "f.txt", etype := EType.blob,
                oid := TObj.blob "f" }] },
         { mode := "100644", path := "c.txt", etype := EType.blob,
           oid := TObj.blob "c" }]))
      (TObj.blob "b") _ (by decide) (by decide) (by decide)
  · exact mutation_frame_spec.2 [] "a" ["f.txt"] "c.txt"
      (TObj.tree
        [{ mode := "040000", path := "a", etype := EType.tree,
           oid := TObj.tree
             [{ mode := "100644", path := "f.txt", etype := EType.blob,
                oid := TObj.blob "f" }] },
         { mode := "100644", path := "c.txt", etype := EType.blob,
           oid := TObj.blob "c" }])
      _ (by decide) (by decide) (by decide)

/-! ## C4: unresolved conflicts abort the merge -/

/-- **C4 (amended).** When the caller supplies no resolution map and the
three-way merge reports a non-empty conflict list, `mergeBranches` fails with
`MergeConflict` carrying exactly that list — one entry per unresolved
conflicting file, named by the file's final path segment (the leaf name, not
the full path) — and, the result being an error, no merge commit is returned
and the destination reference is not advanced. -/
theorem mergeConflict_aborts (refs : RefMap) (ca : String)
    (fmb : CommitObj → CommitObj → List CommitObj) (input : MergeBranchesInput)
    (sourceSha destSha baseSha : CommitObj) (rest : List CommitObj)
    (tOpt : Option TObj) (conflicts : List String)
    (hres : input.resolutions = none)
    (hs : resolveRefOpt refs (normalizeRef input.sourceBranch) = some sourceSha)
    (hd : resolveRefOpt refs (normalizeRef input.destinationBranch) = some destSha)
    (hb : fmb destSha sourceSha = baseSha :: rest)
    (hmt : mergeTrees (some baseSha.tree) (some destSha.tree)
      (some sourceSha.tree) [] = .ok (tOpt, conflicts))
    (hc : conflicts ≠ []) :
    mergeBranches refs ca fmb input = .error (.mergeConflict conflicts) := by
  unfold mergeBranches
  simp only [hs, hd, hb, hres, Option.getD_none, hmt]
  rw [if_pos]
  constructor
  · exact List.length_pos.mpr hc
  · rfl

/-- **C4 (counterexample).** The MergeConflict error does not carry full
paths: with a conflict at the nested path `a/f.txt`, the error carries the
leaf name `f.txt` only — `a/f.txt`, the single path on which the branches
differ, is not in the carried list. -/
theorem mergeConflict_leaf_name_counterexample :
    mergeBranches
        [("refs/heads/main",
          CommitObj.mk
            (TObj.tree [TreeEntryF.mk "040000" "a" EType.tree
              (TObj.tree [TreeEntryF.mk "100644" "f.txt" EType.blob (TObj.blob "1")])])
            [CommitObj.mk
              (TObj.tree [TreeEntryF.mk "040000" "a" EType.tree
                (TObj.tree [TreeEntryF.mk "100644" "f.txt" EType.blob (TObj.blob "0")])])
              [] "t" "init"] "t" "ours"),
         ("refs/heads/feature",
          CommitObj.mk
            (TObj.tree [TreeEntryF.mk "040000" "a" EType.tree
              (TObj.tree [TreeEntryF.mk "100644" "f.txt" EType.blob (TObj.blob "2")])])
            [CommitObj.mk
              (TObj.tree [TreeEntryF.mk "040000" "a" EType.tree
                (TObj.tree [TreeEntryF.mk "100644" "f.txt" EType.blob (TObj.blob "0")])])
              [] "t" "init"] "t" "theirs")]
        "t"
        (fun _ _ => [CommitObj.mk
          (TObj.tree [TreeEntryF.mk "040000" "a" EType.tree
            (TObj.tree [TreeEntryF.mk "100644" "f.txt" EType.blob (TObj.blob "0")])])
          [] "t" "init"])
        { sourceBranch := "feature", destinationBranch := "main",
          resolutions := none, commitMessage := none, author := none } =
      .error (.mergeConflict ["f.txt"]) ∧
    "a/f.txt" ∉ ["f.txt"] := by
  constructor
  · simp [mergeBranches, normalizeRef, strStartsWith, resolveRefOpt,
      mergeTrees, mergeNames, readTreeEntriesE, readTreeE, mapLookup,
      dedupFirst, dedupFirstAux, writeTree, writeBlob, gitKey,
      CommitObj.tree, Option.getD, Option.toList, Option.any]
  · decide

/-- Witness for C4 (amended): the concrete nested-conflict merge aborts with
`MergeConflict ["f.txt"]`. -/
theorem mergeConflict_aborts_witness :
    mergeBranches
        [("refs/heads/main",
          CommitObj.mk
            (TObj.tree [TreeEntryF.mk "040000" "a" EType.tree
              (TObj.tree [TreeEntryF.mk "100644" "f.txt" EType.blob (TObj.blob "1")])])
            [] "t" "ours"),
         ("refs/heads/feature",
          CommitObj.mk
            (TObj.tree [TreeEntryF.mk "040000" "a" EType.tree
              (TObj.tree [TreeEntryF.mk "100644" "f.txt" EType.blob (TObj.blob "2")])])
            [] "t" "theirs")]
        "t"
        (fun _ _ => [CommitObj.mk
          (TObj.tree [TreeEntryF.mk "040000" "a" EType.tree
            (TObj.tree [TreeEntryF.mk "100644" "f.txt" EType.blob (TObj.blob "0")])])
          [] "t" "init"])
        { sourceBranch := "feature", destinationBranch := "main",
          resolutions := none, commitMessage := none, author := none } =
      .error (.mergeConflict ["f.txt"]) := by
  refine mergeConflict_aborts _ _ _ _ _ _ _ [] none ["f.txt"] rfl rfl rfl rfl ?_
    (by decide)
  simp [mergeTrees, mergeNames, readTreeEntriesE, readTreeE, mapLookup,
    dedupFirst, dedupFirstAux, writeTree, writeBlob, gitKey, CommitObj.tree,
    Option.toList, Option.any]

/-! ## C7: merging with `ours = base` yields `theirs` -/

theorem mapLookup_path {es : List TreeEntry} {p : String} {e : TreeEntry}
    (h : mapLookup es p = some e) : e.path = p := by
  have := List.find?_some h
  simpa using this

theorem mapLookup_mem {es : List TreeEntry} {p : String} {e : TreeEntry}
    (h : mapLookup es p = some e) : e ∈ es := by
  have := List.mem_of_find?_eq_some h
  simpa using this

theorem mapLookup_of_nodup {es : List TreeEntry} {e : TreeEntry}
    (hnodup : (es.map (fun e => e.path)).Nodup) (hmem : e ∈ es) :
    mapLookup es e.path = some e := by
  apply find?_eq_some_of_unique
  · simpa using hmem
  · simp
  · intro x hx hpx
    exact List.inj_on_of_nodup_map hnodup (by simpa using hx) hmem
      (by simpa using hpx)

theorem mapLookup_eq_none {es : List TreeEntry} {p : String}
    (h : p ∉ es.map (fun e => e.path)) : mapLookup es p = none := by
  rw [mapLookup, List.find?_eq_none]
  intro x hx hpx
  exact h (List.mem_map.mpr ⟨x, by simpa using hx, by simpa using hpx⟩)

theorem wfEnts_iff : ∀ l : List TreeEntry,
    wfEnts l = true ↔ ∀ e ∈ l, wfEntry e = true := by
  intro l
  induction l with
  | nil => simp [wfEnts]
  | cons e r ih =>
      rw [wfEnts, Bool.and_eq_true, ih]
      constructor
      · rintro ⟨he, hr⟩ x hx
        rcases List.mem_cons.mp hx with rfl | hx'
        · exact he
        · exact hr x hx'
      · intro h
        exact ⟨h e (List.mem_cons_self e r),
          fun x hx => h x (List.mem_cons_of_mem _ hx)⟩

theorem wfEntry_cases {e : TreeEntry} (h : wfEntry e = true) :
    (e.etype = EType.blob ∧ (∃ c, e.oid = TObj.blob c) ∧ e.mode = "100644") ∨
    (e.etype = EType.tree ∧ (∃ es, e.oid = TObj.tree es) ∧ e.mode = "040000" ∧
      wfObj e.oid = true) := by
  rw [wfEntry] at h
  cases hty : e.etype with
  | blob =>
      cases hoid : e.oid with
      | blob c =>
          left
          refine ⟨rfl, ⟨c, rfl⟩, ?_⟩
          rw [hty, hoid] at h
          simpa using h
      | tree es => rw [hty, hoid] at h; simp at h
  | tree =>
      cases hoid : e.oid with
      | blob c => rw [hty, hoid] at h; simp at h
      | tree es =>
          right
          rw [hty, hoid] at h
          simp only [Bool.and_eq_true, beq_iff_eq] at h
          exact ⟨rfl, ⟨es, rfl⟩, h.1, hoid ▸ h.2⟩

theorem wfObj_tree_parts {es : List TreeEntry}
    (h : wfObj (TObj.tree es) = true) :
    List.Pairwise keyLt es ∧ (es.map (fun e => e.path)).Nodup ∧
      wfEnts es = true := by
  rw [wfObj] at h
  simp only [Bool.and_eq_true, decide_eq_true_eq] at h
  exact ⟨h.1.1, h.1.2, h.2⟩

theorem noFlip_none_right : ∀ x : Option TObj, noFlip x none = true := by
  intro x
  cases x with
  | none => simp [noFlip]
  | some t => cases t <;> simp [noFlip]

theorem noFlip_none_left : ∀ y : Option TObj, noFlip none y = true := by
  intro y
  cases y with
  | none => simp [noFlip]
  | some t => cases t <;> simp [noFlip]

theorem mem_dedupFirstAux : ∀ (l : List String) (seen : List String) (p : String),
    p ∈ dedupFirstAux seen l ↔ p ∈ l ∧ p ∉ seen := by
  intro l
  induction l with
  | nil => intro seen p; simp [dedupFirstAux]
  | cons x r ih =>
      intro seen p
      rw [dedupFirstAux]
      by_cases hx : x ∈ seen
      · rw [if_pos hx, ih]
        constructor
        · rintro ⟨hp, hs⟩
          exact ⟨List.mem_cons_of_mem _ hp, hs⟩
        · rintro ⟨hp, hs⟩
          rcases List.mem_cons.mp hp with rfl | hp'
          · exact absurd hx hs
          · exact ⟨hp', hs⟩
      · rw [if_neg hx]
        simp only [List.mem_cons, ih]
        constructor
        · rintro (rfl | ⟨hp, hs⟩)
          · exact ⟨Or.inl rfl, hx⟩
          · refine ⟨Or.inr hp, ?_⟩
            intro hmem
            exact hs (Or.inr hmem)
        · rintro ⟨rfl | hp, hs⟩
          · exact Or.inl rfl
          · by_cases hpx : p = x
            · exact Or.inl hpx
            · exact Or.inr ⟨hp, by simp [hpx, hs]⟩

theorem mem_dedupFirst {l : List String} {p : String} :
    p ∈ dedupFirst l ↔ p ∈ l := by
  rw [dedupFirst, mem_dedupFirstAux]
  simp

theorem noFlipNames_mem : ∀ (names : List String) (bes tes : List TreeEntry),
    noFlipNames names bes tes = true → ∀ p ∈ names,
    noFlip ((mapLookup bes p).map (fun e => e.oid))
      ((mapLookup tes p).map (fun e => e.oid)) = true := by
  intro names
  induction names with
  | nil => intro bes tes _ p hp; cases hp
  | cons x r ih =>
      intro bes tes h p hp
      rw [noFlipNames, Bool.and_eq_true] at h
      rcases List.mem_cons.mp hp with rfl | hp'
      · exact h.1
      · exact ih bes tes h.2 p hp'

theorem noFlip_pointwise {bes tes : List TreeEntry}
    (h : noFlip (some (TObj.tree bes)) (some (TObj.tree tes)) = true) :
    ∀ p, noFlip ((mapLookup bes p).map (fun e => e.oid))
      ((mapLookup tes p).map (fun e => e.oid)) = true := by
  intro p
  rw [noFlip] at h
  by_cases hp : p ∈ dedupFirst
      (bes.map (fun e => e.path) ++ tes.map (fun e => e.path))
  · exact noFlipNames_mem _ bes tes h p hp
  · rw [mem_dedupFirst, List.mem_append] at hp
    push_neg at hp
    rw [mapLookup_eq_none hp.1, mapLookup_eq_none hp.2]
    simp [noFlip]

theorem mergeNamesFF (N : Nat)
    (ihN : ∀ b th : Option TObj, optSize b + optSize th ≤ N →
      wfOpt b = true → wfOpt th = true → isTreeOrNone b = true →
      isTreeOrNone th = true → noEmptyOpt th = true → noFlip b th = true →
      mergeTrees b b th [] = .ok (th, []))
    (bes tes : List TreeEntry)
    (hsize : entsSize bes + entsSize tes ≤ N)
    (hwfb : wfEnts bes = true) (hwft : wfEnts tes = true)
    (hnet : noEmptyEnts tes = true)
    (hflip : ∀ p, noFlip ((mapLookup bes p).map (fun e => e.oid))
      ((mapLookup tes p).map (fun e => e.oid)) = true) :
    ∀ names : List String,
      mergeNames names bes bes tes [] =
        .ok (names.filterMap (fun p => mapLookup tes p), []) := by
  intro names
  induction names with
  | nil => rw [mergeNames]; rfl
  | cons p rest ihrest =>
      rw [mergeNames]
      by_cases hdir : ((mapLookup bes p).any (fun e => e.etype == EType.tree)
          || (mapLookup tes p).any (fun e => e.etype == EType.tree)) = true
      · rw [dif_pos hdir]
        cases hbe : mapLookup bes p with
        | none =>
            cases hte : mapLookup tes p with
            | none =>
                rw [hbe, hte] at hdir
                simp [Option.any] at hdir
            | some te' =>
                rw [hbe, hte] at hdir
                have htef : te'.etype = EType.tree := by
                  simpa [Option.any] using hdir
                rcases wfEntry_cases ((wfEnts_iff tes).mp hwft te'
                    (mapLookup_mem hte)) with
                  ⟨hf, _, _⟩ | ⟨_, ⟨tses, hoid⟩, hmode, hwf⟩
                · rw [htef] at hf; cases hf
                · have hcall : mergeTrees none none (some te'.oid) [] =
                      .ok (some te'.oid, []) := by
                    apply ihN
                    · have h2 := objSize_mapLookup_lt hte
                      simp only [optSize]
                      omega
                    · rfl
                    · simpa [wfOpt] using hwf
                    · rfl
                    · simp [isTreeOrNone, hoid]
                    · simp only [noEmptyOpt]
                      exact (noEmptyEnts_iff tes).mp hnet te' (mapLookup_mem hte)
                    · exact noFlip_none_left _
                  simp only [Option.map_none', Option.map_some']
                  rw [hcall, ihrest]
                  dsimp only
                  simp only [List.filterMap_cons]
                  rw [hte]
                  have hpath := mapLookup_path hte
                  have hte'eq : TreeEntryF.mk "040000" p EType.tree te'.oid
                      = te' := by
                    cases te'
                    simp_all
                  rw [hte'eq]
                  rfl
        | some be' =>
            rcases wfEntry_cases ((wfEnts_iff bes).mp hwfb be'
                (mapLookup_mem hbe)) with
              ⟨hbf, ⟨bc, hboid⟩, _⟩ | ⟨hbf, ⟨bses, hboid⟩, hbmode, hbwf⟩
            · -- the base/ours entry is a blob: theirs must carry the tree flag
              cases hte : mapLookup tes p with
              | none =>
                  rw [hbe, hte] at hdir
                  simp [Option.any, hbf] at hdir
              | some te' =>
                  rcases wfEntry_cases ((wfEnts_iff tes).mp hwft te'
                      (mapLookup_mem hte)) with
                    ⟨htf, _, _⟩ | ⟨htf, ⟨tses, htoid⟩, _, _⟩
                  · rw [hbe, hte] at hdir
                    simp [Option.any, hbf, htf] at hdir
                  · have hf := hflip p
                    rw [hbe, hte] at hf
                    simp only [Option.map_some'] at hf
                    rw [hboid, htoid] at hf
                    simp [noFlip] at hf
            · cases hte : mapLookup tes p with
              | none =>
                  have hcall : mergeTrees (some be'.oid) (some be'.oid) none [] =
                      .ok (none, []) := by
                    apply ihN
                    · have h1 := objSize_mapLookup_lt hbe
                      simp only [optSize]
                      omega
                    · simpa [wfOpt] using hbwf
                    · rfl
                    · simp [isTreeOrNone, hboid]
                    · rfl
                    · rfl
                    · exact noFlip_none_right _
                  simp only [Option.map_none', Option.map_some']
                  rw [hcall, ihrest]
                  dsimp only
                  simp only [List.filterMap_cons]
                  rw [hte]
                  rfl
              | some te' =>
                  rcases wfEntry_cases ((wfEnts_iff tes).mp hwft te'
                      (mapLookup_mem hte)) with
                    ⟨htf, ⟨tc, htoid⟩, _⟩ | ⟨htf, ⟨tses, htoid⟩, htmode, htwf⟩
                  · have hf := hflip p
                    rw [hbe, hte] at hf
                    simp only [Option.map_some'] at hf
                    rw [hboid, htoid] at hf
                    simp [noFlip] at hf
                  · have hcall : mergeTrees (some be'.oid) (some be'.oid)
                        (some te'.oid) [] = .ok (some te'.oid, []) := by
                      apply ihN
                      · have h1 := objSize_mapLookup_lt hbe
                        have h2 := objSize_mapLookup_lt hte
                        simp only [optSize]
                        omega
                      · simpa [wfOpt] using hbwf
                      · simpa [wfOpt] using htwf
                      · simp [isTreeOrNone, hboid]
                      · simp [isTreeOrNone, htoid]
                      · simp only [noEmptyOpt]
                        exact (noEmptyEnts_iff tes).mp hnet te'
                          (mapLookup_mem hte)
                      · have hf := hflip p
                        rw [hbe, hte] at hf
                        simpa using hf
                    simp only [Option.map_some']
                    rw [hcall, ihrest]
                    dsimp only
                    simp only [List.filterMap_cons]
                    rw [hte]
                    have hpath := mapLookup_path hte
                    have hte'eq : TreeEntryF.mk "040000" p EType.tree te'.oid
                        = te' := by
                      cases te'
                      simp_all
                    rw [hte'eq]
                    rfl
      · rw [dif_neg hdir]
        rw [ihrest]
        have hstep :
            (if ((mapLookup bes p).map (fun e => e.oid)) =
                ((mapLookup tes p).map (fun e => e.oid)) then
               ((mapLookup bes p).toList, ([] : List String))
             else if ((mapLookup bes p).map (fun e => e.oid)) =
                  ((mapLookup bes p).map (fun e => e.oid)) ∧
                 ((mapLookup tes p).map (fun e => e.oid)) ≠
                  ((mapLookup bes p).map (fun e => e.oid)) then
               ((mapLookup tes p).toList, ([] : List String))
             else if ((mapLookup bes p).map (fun e => e.oid)) ≠
                  ((mapLookup bes p).map (fun e => e.oid)) ∧
                 ((mapLookup tes p).map (fun e => e.oid)) =
                  ((mapLookup bes p).map (fun e => e.oid)) then
               ((mapLookup bes p).toList, ([] : List String))
             else
               match (([] : List (String × String)).find?
                   (fun kv => kv.1 == p)).map (fun kv => kv.2) with
               | some r =>
                   if r = "" then (([] : List TreeEntry), [p])
                   else ([{ mode := "100644", path := p, etype := EType.blob,
                            oid := writeBlob r }], [])
               | none => (([] : List TreeEntry), [p])) =
            ((mapLookup tes p).toList, ([] : List String)) := by
          cases hbe : mapLookup bes p with
          | none =>
              cases hte : mapLookup tes p with
              | none => simp
              | some te' => simp
          | some be' =>
              cases hte : mapLookup tes p with
              | none => simp
              | some te' =>
                  by_cases heq : be'.oid = te'.oid
                  · rw [if_pos (by simp [heq])]
                    rcases wfEntry_cases ((wfEnts_iff bes).mp hwfb be'
                        (mapLookup_mem hbe)) with
                      ⟨hbf, _, hbmode⟩ | ⟨hbf, _, _, _⟩
                    · rcases wfEntry_cases ((wfEnts_iff tes).mp hwft te'
                          (mapLookup_mem hte)) with
                        ⟨htf, _, htmode⟩ | ⟨htf, _, _, _⟩
                      · have hbp := mapLookup_path hbe
                        have htp := mapLookup_path hte
                        have hbt : be' = te' := by
                          cases be'; cases te'
                          simp_all
                        rw [hbt]
                      · exact absurd (by rw [hbe, hte]; simp [Option.any, htf])
                          hdir
                    · rw [hbe] at hdir
                      simp [Option.any, hbf] at hdir
                  · rw [if_neg (by simp [heq])]
                    rw [if_pos (by simp [Ne.symm heq])]
        rw [hstep]
        simp only [List.filterMap_cons]
        cases hte : mapLookup tes p with
        | none => rfl
        | some te' => rfl

instance : IsAntisymm TreeEntry keyLt :=
  ⟨fun a b hab hba => absurd (strLe_antisymm hab.1 hba.1) hab.2⟩

instance : IsTotal TreeEntry (fun a b => strLe (gitKey a) (gitKey b) = true) :=
  ⟨fun a b => strLe_total _ _⟩

instance : IsTrans TreeEntry (fun a b => strLe (gitKey a) (gitKey b) = true) :=
  ⟨fun _ _ _ => strLe_trans⟩

theorem nodup_dedupFirstAux : ∀ (l seen : List String),
    (dedupFirstAux seen l).Nodup := by
  intro l
  induction l with
  | nil => intro seen; simp [dedupFirstAux]
  | cons x r ih =>
      intro seen
      rw [dedupFirstAux]
      by_cases hx : x ∈ seen
      · rw [if_pos hx]; exact ih seen
      · rw [if_neg hx]
        refine List.Nodup.cons ?_ (ih (x :: seen))
        intro hmem
        have := (mem_dedupFirstAux r (x :: seen) x).mp hmem
        exact this.2 (List.mem_cons_self x seen)

theorem nodup_dedupFirst (l : List String) : (dedupFirst l).Nodup :=
  nodup_dedupFirstAux l []

theorem map_path_filterMap (tes : List TreeEntry) :
    ∀ names : List String,
      (names.filterMap (fun p => mapLookup tes p)).map (fun e => e.path) =
        names.filter (fun p => (mapLookup tes p).isSome) := by
  intro names
  induction names with
  | nil => rfl
  | cons p rest ih =>
      rw [List.filterMap_cons, List.filter_cons]
      cases hp : mapLookup tes p with
      | none => simpa [hp] using ih
      | some e =>
          have := mapLookup_path hp
          simp [hp, this, ih]

theorem filterMap_mapLookup_perm {names : List String} {tes : List TreeEntry}
    (hnodupN : names.Nodup) (hnodupT : (tes.map (fun e => e.path)).Nodup)
    (hcover : ∀ e ∈ tes, e.path ∈ names) :
    (names.filterMap (fun p => mapLookup tes p)).Perm tes := by
  have hnodup1 : (names.filterMap (fun p => mapLookup tes p)).Nodup := by
    apply List.Nodup.of_map (fun e => e.path)
    rw [map_path_filterMap]
    exact hnodupN.filter _
  have hnodup2 : tes.Nodup := List.Nodup.of_map _ hnodupT
  rw [List.perm_ext_iff_of_nodup hnodup1 hnodup2]
  intro e
  rw [List.mem_filterMap]
  constructor
  · rintro ⟨p, _, hp⟩
    exact mapLookup_mem hp
  · intro he
    exact ⟨e.path, hcover e he, mapLookup_of_nodup hnodupT he⟩

theorem writeTree_eq_of_perm_sorted {l tes : List TreeEntry}
    (hperm : l.Perm tes) (hsorted : List.Pairwise keyLt tes) :
    writeTree l = TObj.tree tes := by
  unfold writeTree
  congr 1
  have h1 : (l.insertionSort
      (fun a b => strLe (gitKey a) (gitKey b) = true)).Perm tes :=
    (List.perm_insertionSort _ l).trans hperm
  have hsort1 := List.sorted_insertionSort
    (fun a b => strLe (gitKey a) (gitKey b) = true) l
  have hkeysT : (tes.map gitKey).Nodup := by
    rw [List.Nodup, List.pairwise_map]
    exact hsorted.imp (fun h => h.2)
  have hkeys1 : ((l.insertionSort
      (fun a b => strLe (gitKey a) (gitKey b) = true)).map gitKey).Nodup :=
    ((h1.map gitKey).nodup_iff).mpr hkeysT
  have hsorted1 : List.Pairwise keyLt (l.insertionSort
      (fun a b => strLe (gitKey a) (gitKey b) = true)) := by
    have hne := List.pairwise_map.mp hkeys1
    exact hsort1.and hne
  exact List.eq_of_perm_of_sorted h1 hsorted1 hsorted

theorem objSize_pos : ∀ t : TObj, 1 ≤ objSize t := by
  intro t
  cases t with
  | blob c => simp [objSize]
  | tree es => simp [objSize]

theorem filterMap_mapLookup_nil : ∀ names : List String,
    names.filterMap (fun p => mapLookup ([] : List TreeEntry) p) = [] := by
  intro names
  induction names with
  | nil => rfl
  | cons p rest ih => simpa [List.filterMap_cons, mapLookup] using ih

theorem mergeFF_aux : ∀ (N : Nat) (b th : Option TObj),
    optSize b + optSize th ≤ N →
    wfOpt b = true → wfOpt th = true → isTreeOrNone b = true →
    isTreeOrNone th = true → noEmptyOpt th = true → noFlip b th = true →
    mergeTrees b b th [] = .ok (th, []) := by
  intro N
  induction N with
  | zero =>
      intro b th hsize _ _ _ _ _ _
      have hb : b = none := by
        cases b with
        | none => rfl
        | some t =>
            have := objSize_pos t
            simp only [optSize] at hsize
            omega
      have ht : th = none := by
        cases th with
        | none => rfl
        | some t =>
            have := objSize_pos t
            simp only [optSize] at hsize
            omega
      subst hb; subst ht
      simp [mergeTrees, mergeNames, readTreeEntriesE, dedupFirst, dedupFirstAux]
  | succ N ihN =>
      intro b th hsize hwb hwt hib hit hnet hfl
      cases b with
      | some bo =>
          cases bo with
          | blob c => simp [isTreeOrNone] at hib
          | tree bes =>
              have hwb' := wfObj_tree_parts (by simpa [wfOpt] using hwb)
              cases th with
              | some tho =>
                  cases tho with
                  | blob c => simp [isTreeOrNone] at hit
                  | tree tes =>
                      have hwt' := wfObj_tree_parts (by simpa [wfOpt] using hwt)
                      have hnet' : (!tes.isEmpty) = true ∧
                          noEmptyEnts tes = true := by
                        have : noEmptyObj (TObj.tree tes) = true := by
                          simpa [noEmptyOpt] using hnet
                        rw [noEmptyObj, Bool.and_eq_true] at this
                        exact this
                      have hsz : entsSize bes + entsSize tes ≤ N := by
                        simp only [optSize, objSize] at hsize
                        omega
                      have hmrg := mergeNamesFF N ihN bes tes hsz hwb'.2.2
                        hwt'.2.2 hnet'.2 (noFlip_pointwise hfl)
                        (dedupFirst (bes.map (fun e => e.path) ++
                          bes.map (fun e => e.path) ++
                          tes.map (fun e => e.path)))
                      have hperm := @filterMap_mapLookup_perm
                        (dedupFirst (bes.map (fun e => e.path) ++
                          bes.map (fun e => e.path) ++
                          tes.map (fun e => e.path))) tes
                        (nodup_dedupFirst _) hwt'.2.1
                        (fun e he => mem_dedupFirst.mpr
                          (List.mem_append_right _
                            (List.mem_map.mpr ⟨e, he, rfl⟩)))
                      have htne : tes ≠ [] := by
                        intro hnil
                        rw [hnil] at hnet'
                        simp at hnet'
                      simp only [mergeTrees, readTreeEntriesE, readTreeE]
                      rw [hmrg]
                      simp only []
                      rw [if_neg (by simp)]
                      rw [if_neg (by
                        rw [hperm.length_eq]
                        simpa using htne)]
                      rw [writeTree_eq_of_perm_sorted hperm hwt'.1]
              | none =>
                  have hsz : entsSize bes + entsSize ([] : List TreeEntry)
                      ≤ N := by
                    simp only [optSize, objSize, entsSize] at hsize ⊢
                    omega
                  have hflip' : ∀ p,
                      noFlip ((mapLookup bes p).map (fun e => e.oid))
                        ((mapLookup ([] : List TreeEntry) p).map
                          (fun e => e.oid)) = true := by
                    intro p
                    exact noFlip_none_right _
                  have hmrg := mergeNamesFF N ihN bes [] hsz hwb'.2.2
                    rfl rfl hflip'
                    (dedupFirst (bes.map (fun e => e.path) ++
                      bes.map (fun e => e.path) ++
                      ([] : List TreeEntry).map (fun e => e.path)))
                  simp only [mergeTrees, readTreeEntriesE, readTreeE]
                  rw [hmrg]
                  simp only []
                  rw [filterMap_mapLookup_nil]
                  rw [if_neg (by simp)]
                  rw [if_pos (by simp)]
      | none =>
          cases th with
          | some tho =>
              cases tho with
              | blob c => simp [isTreeOrNone] at hit
              | tree tes =>
                  have hwt' := wfObj_tree_parts (by simpa [wfOpt] using hwt)
                  have hnet' : (!tes.isEmpty) = true ∧
                      noEmptyEnts tes = true := by
                    have : noEmptyObj (TObj.tree tes) = true := by
                      simpa [noEmptyOpt] using hnet
                    rw [noEmptyObj, Bool.and_eq_true] at this
                    exact this
                  have hsz : entsSize ([] : List TreeEntry) + entsSize tes
                      ≤ N := by
                    simp only [optSize, objSize, entsSize] at hsize ⊢
                    omega
                  have hflip' : ∀ p,
                      noFlip ((mapLookup ([] : List TreeEntry) p).map
                        (fun e => e.oid))
                        ((mapLookup tes p).map (fun e => e.oid)) = true := by
                    intro p
                    exact noFlip_none_left _
                  have hmrg := mergeNamesFF N ihN [] tes hsz rfl
                    hwt'.2.2 hnet'.2 hflip'
                    (dedupFirst (([] : List TreeEntry).map (fun e => e.path) ++
                      ([] : List TreeEntry).map (fun e => e.path) ++
                      tes.map (fun e => e.path)))
                  have hperm := @filterMap_mapLookup_perm
                    (dedupFirst (([] : List TreeEntry).map (fun e => e.path) ++
                      ([] : List TreeEntry).map (fun e => e.path) ++
                      tes.map (fun e => e.path))) tes
                    (nodup_dedupFirst _) hwt'.2.1
                    (fun e he => mem_dedupFirst.mpr
                      (List.mem_append_right _
                        (List.mem_map.mpr ⟨e, he, rfl⟩)))
                  have htne : tes ≠ [] := by
                    intro hnil
                    rw [hnil] at hnet'
                    simp at hnet'
                  simp only [mergeTrees, readTreeEntriesE, readTreeE]
                  rw [hmrg]
                  simp only []
                  rw [if_neg (by simp)]
                  rw [if_neg (by
                    rw [hperm.length_eq]
                    simpa using htne)]
                  rw [writeTree_eq_of_perm_sorted hperm hwt'.1]
          | none =>
              simp [mergeTrees, mergeNames, readTreeEntriesE, dedupFirst,
                dedupFirstAux]

/-- C7 (corrected): for canonical stored snapshots (entries strictly sorted in
git tree order, names unique, kind flags consistent), with `ours` equal to
`base`, `theirs` free of empty subtrees and no blob/tree kind flip between
`base` and `theirs` at any path, the three-way tree merge with an empty
resolution list returns exactly `theirs`' snapshot with zero conflicts. -/
theorem mergeTrees_fastforward (b th : Option TObj)
    (hwb : wfOpt b = true) (hwt : wfOpt th = true)
    (hib : isTreeOrNone b = true) (hit : isTreeOrNone th = true)
    (hne : noEmptyOpt th = true) (hfl : noFlip b th = true) :
    mergeTrees b b th [] = .ok (th, []) :=
  mergeFF_aux (optSize b + optSize th) b th le_rfl hwb hwt hib hit hne hfl

/-- C7 counterexample to the unconditional claim: `ours` equals `base` at
every path (they are the same snapshot), yet because `theirs` turns the blob
`x.txt` into a directory, the recursive merge applies `readTree` to the blob
side and the whole merge aborts with `OperationFailed("readTree")` instead of
returning `theirs`' tree with zero conflicts. -/
theorem mergeTrees_typeflip_counterexample :
    mergeTrees
      (some (TObj.tree [TreeEntryF.mk "100644" "x.txt" EType.blob
        (TObj.blob "a")]))
      (some (TObj.tree [TreeEntryF.mk "100644" "x.txt" EType.blob
        (TObj.blob "a")]))
      (some (TObj.tree [TreeEntryF.mk "040000" "x.txt" EType.tree
        (TObj.tree [TreeEntryF.mk "100644" "y.txt" EType.blob
          (TObj.blob "b")])]))
      [] =
      .error (GErr.operationFailed "readTree" "object expected type tree") := by
  simp [mergeTrees, mergeNames, readTreeEntriesE, readTreeE, mapLookup,
    dedupFirst, dedupFirstAux, Option.any]

/-- Witness for C7: a concrete fast-forward-equivalent merge (one file changed,
one added by `theirs`) returning exactly `theirs`' snapshot. -/
theorem mergeTrees_fastforward_witness :
    mergeTrees
      (some (TObj.tree [TreeEntryF.mk "100644" "a.txt" EType.blob
        (TObj.blob "1")]))
      (some (TObj.tree [TreeEntryF.mk "100644" "a.txt" EType.blob
        (TObj.blob "1")]))
      (some (TObj.tree [TreeEntryF.mk "100644" "a.txt" EType.blob
        (TObj.blob "2"), TreeEntryF.mk "100644" "b.txt" EType.blob
        (TObj.blob "3")]))
      [] =
      .ok (some (TObj.tree [TreeEntryF.mk "100644" "a.txt" EType.blob
        (TObj.blob "2"), TreeEntryF.mk "100644" "b.txt" EType.blob
        (TObj.blob "3")]), []) :=
  mergeTrees_fastforward _ _ (by decide) (by decide) (by decide) (by decide)
    (by decide)
    (by simp [noFlip, noFlipNames, dedupFirst, dedupFirstAux, mapLookup])
